import Mathlib

/-!
The first-fit allocator `memalloc` over one arena (`src/mem.c`): a shallow
embedding of `mem.c` and the properties proved of it.

* Addresses (`void *`, `free_zone_t *`) are natural numbers, `NULL` is `0`.
* The arena memory is seen through the headers stored in it: `zones a` is the
  `free_zone_t` record read at address `a`.  Writing a field of the header at
  `a` changes `zones a` only.  This is what the C program does as long as the
  headers in use do not overlap each other, that is, as long as their addresses
  are at least `sizeof(free_zone_t)` apart.
* Where headers can overlap (a free block shorter than a header, followed by the
  zone that is freed), `mem_free` is also given on the bytes of memory
  (`mem_free_bytes`): a header is two 8-byte little-endian words, `size` at
  offset 0 and `next` at offset 8, as on an LP64 little-endian platform.  The
  two agree when the headers of the free list and of the freed zone are 16
  bytes apart (`mem_free_bytes_agrees`).
* `unsigned long` arithmetic that can wrap is taken modulo `2 ^ 64`.
* `HEAP_SIZE` comes from `mem.h`, and `sizeof(free_zone_t)` from the platform;
  both are parameters (`HEAP_SIZE`, `H`).
* Every `while` loop is a recursive function with a `fuel` bound on the number
  of iterations.  A loop has no result (`none`) when the bound is reached or
  when it dereferences `NULL`.
-/

namespace MemAlloc

/-! ## Data model -/

/-- The header `struct free_zone`: size of the free zone and next free zone. -/
structure free_zone where
  size : Nat
  next : Nat
deriving DecidableEq, Repr

/-- The globals `mem_heap`, `mem_free_zone`, `mem_size`, and the headers stored in memory. -/
structure Heap where
  mem_heap : Nat
  mem_free_zone : Nat
  mem_size : Nat
  zones : Nat → free_zone

/-- One more than `ULONG_MAX`. -/
def ULONG_MOD : Nat := 2 ^ 64

/-- The assignment `((free_zone_t *) a)->size = v`.  The header at `a` alone
changes: no other header in use lies less than `sizeof(free_zone_t)` away from
`a` (see `store_size` for the assignment on bytes). -/
def write_size (z : Nat → free_zone) (a v : Nat) : Nat → free_zone :=
  fun x => if x = a then { size := v, next := (z x).next } else z x

/-- The assignment `((free_zone_t *) a)->next = v`.  The header at `a` alone
changes: no other header in use lies less than `sizeof(free_zone_t)` away from
`a` (see `store_next` for the assignment on bytes). -/
def write_next (z : Nat → free_zone) (a v : Nat) : Nat → free_zone :=
  fun x => if x = a then { size := (z x).size, next := v } else z x

/-! ## `mem_init` -/

/-- The function `mem_init`; `p` is the value returned by `malloc(HEAP_SIZE)`. -/
def mem_init (HEAP_SIZE : Nat) (p : Nat) (s : Heap) : Nat × Heap :=
  if p = 0 then
    (1, { s with mem_heap := p })
  else
    let z1 := write_size s.zones p HEAP_SIZE
    let z2 := write_next z1 p p
    (0, { mem_heap := p, mem_free_zone := p, mem_size := HEAP_SIZE, zones := z2 })

/-! ## `mem_destroy` -/

/-- The function `mem_destroy`: `free(mem_heap)` gives the arena back and writes
none of the globals, so the state is the same after the call. -/
def mem_destroy (s : Heap) : Nat × Heap :=
  if s.mem_heap = 0 then (1, s) else (0, s)

/-! ## `r_size` and `not_ok` -/

/-- The function `r_size`. -/
def r_size (H : Nat) (size : Nat) : Nat :=
  if size ≥ H then size else H

/-- The function `not_ok`. -/
def not_ok (H : Nat) (z : Nat → free_zone) (zone : Nat) (size : Nat) : Nat :=
  if (z zone).size < size then 1
  else if (z zone).size = size then 0
  else if (z zone).size - size < H then 1
  else 0

/-! ## `mem_alloc` -/

/-- The search loop of `mem_alloc`:
`while (senti != mem_free_zone && not_ok(senti, real_size)) senti = senti->next;` -/
def alloc_search (H : Nat) (s : Heap) (real_size : Nat) : Nat → Nat → Option Nat
  | 0, _ => none
  | fuel + 1, senti =>
    if senti ≠ s.mem_free_zone then
      if senti = 0 then none
      else if not_ok H s.zones senti real_size ≠ 0 then
        alloc_search H s real_size fuel (s.zones senti).next
      else
        some senti
    else
      some senti

/-- The loop `while (prev->next != target) prev = prev->next;`, which occurs in
`mem_alloc` and `mem_free`. -/
def find_prev (z : Nat → free_zone) (target : Nat) : Nat → Nat → Option Nat
  | 0, _ => none
  | fuel + 1, prev =>
    if prev = 0 then none
    else if (z prev).next ≠ target then find_prev z target fuel (z prev).next
    else some prev

/-- The function `mem_alloc`: the returned address (`0` for `NULL`) and the new state. -/
def mem_alloc (H : Nat) (fuel : Nat) (s : Heap) (size : Nat) : Option (Nat × Heap) :=
  if s.mem_free_zone = 0 ∨ size = 0 then
    some (0, s)
  else
    let real_size := r_size H size
    let senti0 :=
      if (s.zones s.mem_free_zone).size < real_size then (s.zones s.mem_free_zone).next
      else s.mem_free_zone
    match alloc_search H s real_size fuel senti0 with
    | none => none
    | some senti =>
      if (s.zones senti).size = real_size then
        if (s.zones senti).next = senti then
          some (senti, { s with mem_free_zone := 0 })
        else
          let mfz := (s.zones senti).next
          match find_prev s.zones senti fuel (s.zones senti).next with
          | none => none
          | some prev =>
            some (senti, { s with mem_free_zone := mfz, zones := write_next s.zones prev mfz })
      else if (s.zones senti).size > real_size then
        if (s.zones senti).next = senti then
          let mfz := senti + real_size
          let z1 := write_size s.zones mfz ((s.zones senti).size - real_size)
          let z2 := write_next z1 mfz mfz
          some (senti, { s with mem_free_zone := mfz, zones := z2 })
        else
          match find_prev s.zones senti fuel (s.zones senti).next with
          | none => none
          | some prev =>
            let z1 := write_next s.zones prev (senti + real_size)
            let z2 := write_size z1 (senti + real_size) ((z1 senti).size - real_size)
            let z3 := write_next z2 (senti + real_size) (z2 senti).next
            some (senti, { s with zones := z3 })
      else
        some (0, s)

/-! ## `mem_fusion` -/

/-- One merge of `senti` with its successor, the body shared by the loop and
the final test of `mem_fusion`. -/
def fusion_merge (s : Heap) (senti : Nat) : Heap :=
  let z1 := write_size s.zones senti
    (((s.zones senti).size + (s.zones (s.zones senti).next).size) % ULONG_MOD)
  let mfz := if (z1 senti).next = s.mem_free_zone then senti else s.mem_free_zone
  let z2 := write_next z1 senti (z1 (z1 senti).next).next
  { s with mem_free_zone := mfz, zones := z2 }

/-- The loop of `mem_fusion`: the state and `senti` when `senti->next == mem`. -/
def fusion_loop (mem : Nat) : Nat → Heap → Nat → Option (Heap × Nat)
  | 0, _, _ => none
  | fuel + 1, s, senti =>
    if senti = 0 then none
    else if (s.zones senti).next ≠ mem then
      if senti + (s.zones senti).size = (s.zones senti).next then
        fusion_loop mem fuel (fusion_merge s senti) senti
      else
        fusion_loop mem fuel s (s.zones senti).next
    else
      some (s, senti)

/-- The function `mem_fusion`: the returned code and the new state. -/
def mem_fusion (fuel : Nat) (s : Heap) (mem : Nat) : Option (Nat × Heap) :=
  match fusion_loop mem fuel s mem with
  | none => none
  | some (s1, senti) =>
    if senti + (s1.zones senti).size = (s1.zones senti).next then
      some (0, fusion_merge s1 senti)
    else
      some (0, s1)

/-! ## `mem_free` -/

/-- The loop `do { senti = senti->next; } while (senti != mem_free_zone && senti < zone);`
of `mem_free`. -/
def free_scan (s : Heap) (zone : Nat) : Nat → Nat → Option Nat
  | 0, _ => none
  | fuel + 1, senti =>
    if senti = 0 then none
    else
      let senti1 := (s.zones senti).next
      if senti1 ≠ s.mem_free_zone ∧ senti1 < zone then free_scan s zone fuel senti1
      else some senti1

/-- The three assignments `p->next = zone; p->next->size = real_size; p->next->next = nxt;`
that link the freed zone behind `p`. -/
def link_after (z : Nat → free_zone) (p zone real_size nxt : Nat) : Nat → free_zone :=
  let z1 := write_next z p zone
  let z2 := write_size z1 (z1 p).next real_size
  write_next z2 (z2 p).next nxt

/-- The function `mem_free`: the returned code and the new state. -/
def mem_free (H : Nat) (fuel : Nat) (s : Heap) (zone size : Nat) : Option (Nat × Heap) :=
  if zone = 0 ∨ size = 0 ∨ size > s.mem_size ∨ zone < s.mem_heap
      ∨ zone > s.mem_heap + s.mem_size then
    some (1, s)
  else
    let real_size := r_size H size
    if zone + real_size > s.mem_heap + s.mem_size then
      some (1, s)
    else if s.mem_free_zone = 0 then
      let z1 := write_size s.zones zone real_size
      let z2 := write_next z1 zone zone
      some (0, { s with mem_free_zone := zone, zones := z2 })
    else if (s.zones s.mem_free_zone).next = s.mem_free_zone then
      let z1 := write_next s.zones s.mem_free_zone zone
      let z2 := write_size z1 zone real_size
      let z3 := write_next z2 zone s.mem_free_zone
      let mfz := if zone < s.mem_free_zone then zone else s.mem_free_zone
      match mem_fusion fuel { s with mem_free_zone := mfz, zones := z3 } mfz with
      | none => none
      | some (_, s1) => some (0, s1)
    else if s.mem_free_zone < zone then
      match free_scan s zone fuel s.mem_free_zone with
      | none => none
      | some senti =>
        if senti < zone then
          match find_prev s.zones s.mem_free_zone fuel senti with
          | none => none
          | some last =>
            let z3 := link_after s.zones last zone real_size s.mem_free_zone
            match mem_fusion fuel { s with zones := z3 } s.mem_free_zone with
            | none => none
            | some (_, s1) => some (0, s1)
        else
          match find_prev s.zones senti fuel senti with
          | none => none
          | some prev =>
            let z3 := link_after s.zones prev zone real_size senti
            match mem_fusion fuel { s with zones := z3 } s.mem_free_zone with
            | none => none
            | some (_, s1) => some (0, s1)
    else
      match find_prev s.zones s.mem_free_zone fuel s.mem_free_zone with
      | none => none
      | some prev =>
        let z3 := link_after s.zones prev zone real_size s.mem_free_zone
        match mem_fusion fuel { s with mem_free_zone := zone, zones := z3 } zone with
        | none => none
        | some (_, s1) => some (0, s1)

/-! ## `mem_show` -/

/-- The loop `do { print(cur, cur->size); cur = cur->next; } while (cur != senti);`
of `mem_show`: the list of the printed pairs. -/
def show_loop (z : Nat → free_zone) (senti : Nat) : Nat → Nat → Option (List (Nat × Nat))
  | 0, _ => none
  | fuel + 1, cur =>
    if cur = 0 then none
    else if (z cur).next ≠ senti then
      (show_loop z senti fuel (z cur).next).map (fun l => (cur, (z cur).size) :: l)
    else
      some [(cur, (z cur).size)]

/-- The function `mem_show`: the returned code and the calls made to `print`, in order. -/
def mem_show (fuel : Nat) (s : Heap) : Option (Nat × List (Nat × Nat)) :=
  if s.mem_free_zone = 0 then some (1, [])
  else (show_loop s.zones s.mem_free_zone fuel s.mem_free_zone).map (fun l => (0, l))

/-! ## The free list as a list of blocks -/

/-- The chain of headers that starts at `a`, runs through the blocks `l`
(address, size) in order, none of them at `NULL`, and whose last `next` is `b`. -/
def Seg (z : Nat → free_zone) : Nat → List (Nat × Nat) → Nat → Prop
  | a, [], b => a = b
  | a, x :: l, b => a = x.1 ∧ a ≠ 0 ∧ (z a).size = x.2 ∧ Seg z (z a).next l b

/-- The free list of `s`, traversed from `mem_free_zone`, is `l`: empty when
`mem_free_zone` is `NULL`, otherwise one circuit of a circular chain. -/
def FreeListIs (s : Heap) (l : List (Nat × Nat)) : Prop :=
  match l with
  | [] => s.mem_free_zone = 0
  | x :: r =>
    Seg s.zones s.mem_free_zone (x :: r) s.mem_free_zone ∧ ((x :: r).map Prod.fst).Nodup

/-- The state before `mem_init`: null globals, zeroed memory. -/
def blank : Heap := ⟨0, 0, 0, fun _ => ⟨0, 0⟩⟩

/-- A state with three free blocks `(4096, 16)`, `(4196, 32)`, `(4296, 64)` in an
arena of 4096 bytes at address 4096. -/
def three_blocks : Heap :=
  { mem_heap := 4096, mem_free_zone := 4096, mem_size := 4096,
    zones := fun a =>
      if a = 4096 then ⟨16, 4196⟩ else if a = 4196 then ⟨32, 4296⟩
      else if a = 4296 then ⟨64, 4096⟩ else ⟨0, 0⟩ }

/-- A state with two free blocks `(4096, 100)`, `(4296, 3896)` in an arena of
4096 bytes at address 4096. -/
def two_blocks : Heap :=
  { mem_heap := 4096, mem_free_zone := 4096, mem_size := 4096,
    zones := fun a =>
      if a = 4096 then ⟨100, 4296⟩ else if a = 4296 then ⟨3896, 4096⟩ else ⟨0, 0⟩ }

/-- The blocks `l` are in ascending address order, of positive size, pairwise
disjoint, and lie between the addresses `lo` and `hi`. -/
def Blocks (lo hi : Nat) : List (Nat × Nat) → Prop
  | [] => lo ≤ hi
  | x :: l => lo ≤ x.1 ∧ 0 < x.2 ∧ Blocks (x.1 + x.2) hi l

/-- The list `l` with the block `b` put before the first block of higher address:
what the insertion of `mem_free` does to the free list. -/
def insert_block (b : Nat × Nat) : List (Nat × Nat) → List (Nat × Nat)
  | [] => [b]
  | x :: l => if b.1 < x.1 then b :: x :: l else x :: insert_block b l

/-- The pass of `mem_fusion` on the list of blocks: `c` is the current block,
which absorbs its successor as long as it ends where the successor starts. -/
def fuse : Nat × Nat → List (Nat × Nat) → List (Nat × Nat)
  | c, [] => [c]
  | c, b :: r => if c.1 + c.2 = b.1 then fuse (c.1, c.2 + b.2) r else c :: fuse b r

/-- The pass of `mem_fusion` started at the head of the list `l`. -/
def coalesce : List (Nat × Nat) → List (Nat × Nat)
  | [] => []
  | c :: r => fuse c r

/-- The loop of `mem_fusion` on the list of blocks of any chain: as `fuse`, with
the sizes added modulo `2 ^ 64` as the `unsigned long` addition does. -/
def fuse_wrap : Nat × Nat → List (Nat × Nat) → List (Nat × Nat)
  | c, [] => [c]
  | c, b :: r =>
    if c.1 + c.2 = b.1 then fuse_wrap (c.1, (c.2 + b.2) % ULONG_MOD) r
    else c :: fuse_wrap b r

/-- A sequence of calls `mem_alloc(size)`, one for each element of the list: the
addresses returned, in order, and the last state. -/
def alloc_run (H fuel : Nat) : Heap → List Nat → Option (List Nat × Heap)
  | s, [] => some ([], s)
  | s, size :: rest =>
    match mem_alloc H fuel s size with
    | none => none
    | some (p, s1) => (alloc_run H fuel s1 rest).map (fun r => (p :: r.1, r.2))

/-- The bytes handed out by a sequence of calls, given as pairs (requested size,
returned address): `max(size, H)` for each call that returned a non-null address. -/
def live_bytes (H : Nat) : List (Nat × Nat) → Nat
  | [] => 0
  | x :: r => (if x.2 = 0 then 0 else max x.1 H) + live_bytes H r

/-! ## `mem_free` on the bytes of memory

The functions `mem_fusion`, `mem_free` and `mem_show` once more, statement by
statement, on a memory of bytes.  A `free_zone_t` at address `a` is the 8-byte
little-endian word `size` at `a` followed by the 8-byte word `next` at `a + 8`,
so `sizeof(free_zone_t)` is 16, and two headers less than 16 bytes apart share
bytes. -/

/-- The globals `mem_heap`, `mem_free_zone`, `mem_size`, and the memory byte by
byte: `bytes a` is the byte stored at address `a`. -/
structure ByteHeap where
  mem_heap : Nat
  mem_free_zone : Nat
  mem_size : Nat
  bytes : Nat → Nat

/-- The 8-byte little-endian word read at address `a`. -/
def load_word (m : Nat → Nat) (a : Nat) : Nat :=
  m a % 256 + 256 * (m (a + 1) % 256 + 256 * (m (a + 2) % 256 + 256 * (m (a + 3) % 256
    + 256 * (m (a + 4) % 256 + 256 * (m (a + 5) % 256 + 256 * (m (a + 6) % 256
    + 256 * (m (a + 7) % 256)))))))

/-- The memory after the 8-byte little-endian word `v` is written at address `a`. -/
def store_word (m : Nat → Nat) (a v : Nat) : Nat → Nat :=
  fun x => if a ≤ x ∧ x < a + 8 then v / 256 ^ (x - a) % 256 else m x

/-- The value of `((free_zone_t *) a)->size`: the word at offset 0. -/
def size_at (m : Nat → Nat) (a : Nat) : Nat := load_word m a

/-- The value of `((free_zone_t *) a)->next`: the word at offset 8. -/
def next_at (m : Nat → Nat) (a : Nat) : Nat := load_word m (a + 8)

/-- The assignment `((free_zone_t *) a)->size = v` on bytes. -/
def store_size (m : Nat → Nat) (a v : Nat) : Nat → Nat := store_word m a v

/-- The assignment `((free_zone_t *) a)->next = v` on bytes. -/
def store_next (m : Nat → Nat) (a v : Nat) : Nat → Nat := store_word m (a + 8) v

/-- One merge of `senti` with its successor in `mem_fusion`, on bytes. -/
def fusion_merge_bytes (s : ByteHeap) (senti : Nat) : ByteHeap :=
  let m1 := store_size s.bytes senti
    ((size_at s.bytes senti + size_at s.bytes (next_at s.bytes senti)) % ULONG_MOD)
  let mfz := if next_at m1 senti = s.mem_free_zone then senti else s.mem_free_zone
  let m2 := store_next m1 senti (next_at m1 (next_at m1 senti))
  { s with mem_free_zone := mfz, bytes := m2 }

/-- The loop of `mem_fusion` on bytes: the state and `senti` when `senti->next == mem`. -/
def fusion_loop_bytes (mem : Nat) : Nat → ByteHeap → Nat → Option (ByteHeap × Nat)
  | 0, _, _ => none
  | fuel + 1, s, senti =>
    if senti = 0 then none
    else if next_at s.bytes senti ≠ mem then
      if senti + size_at s.bytes senti = next_at s.bytes senti then
        fusion_loop_bytes mem fuel (fusion_merge_bytes s senti) senti
      else
        fusion_loop_bytes mem fuel s (next_at s.bytes senti)
    else
      some (s, senti)

/-- The function `mem_fusion` on bytes: the returned code and the new state. -/
def mem_fusion_bytes (fuel : Nat) (s : ByteHeap) (mem : Nat) : Option (Nat × ByteHeap) :=
  match fusion_loop_bytes mem fuel s mem with
  | none => none
  | some (s1, senti) =>
    if senti + size_at s1.bytes senti = next_at s1.bytes senti then
      some (0, fusion_merge_bytes s1 senti)
    else
      some (0, s1)

/-- The loop `do { senti = senti->next; } while (senti != mem_free_zone && senti < zone);`
of `mem_free`, on bytes. -/
def free_scan_bytes (s : ByteHeap) (zone : Nat) : Nat → Nat → Option Nat
  | 0, _ => none
  | fuel + 1, senti =>
    if senti = 0 then none
    else
      let senti1 := next_at s.bytes senti
      if senti1 ≠ s.mem_free_zone ∧ senti1 < zone then free_scan_bytes s zone fuel senti1
      else some senti1

/-- The loop `while (prev->next != target) prev = prev->next;` of `mem_free`, on bytes. -/
def find_prev_bytes (m : Nat → Nat) (target : Nat) : Nat → Nat → Option Nat
  | 0, _ => none
  | fuel + 1, prev =>
    if prev = 0 then none
    else if next_at m prev ≠ target then find_prev_bytes m target fuel (next_at m prev)
    else some prev

/-- The three assignments `p->next = zone; p->next->size = real_size; p->next->next = nxt;`
on bytes; `p->next` is read again for each of the last two. -/
def link_after_bytes (m : Nat → Nat) (p zone real_size nxt : Nat) : Nat → Nat :=
  let m1 := store_next m p zone
  let m2 := store_size m1 (next_at m1 p) real_size
  store_next m2 (next_at m2 p) nxt

/-- The function `mem_free` on bytes, with `sizeof(free_zone_t) = 16`: the returned
code and the new state. -/
def mem_free_bytes (fuel : Nat) (s : ByteHeap) (zone size : Nat) : Option (Nat × ByteHeap) :=
  if zone = 0 ∨ size = 0 ∨ size > s.mem_size ∨ zone < s.mem_heap
      ∨ zone > s.mem_heap + s.mem_size then
    some (1, s)
  else
    let real_size := r_size 16 size
    if zone + real_size > s.mem_heap + s.mem_size then
      some (1, s)
    else if s.mem_free_zone = 0 then
      let m1 := store_size s.bytes zone real_size
      let m2 := store_next m1 zone zone
      some (0, { s with mem_free_zone := zone, bytes := m2 })
    else if next_at s.bytes s.mem_free_zone = s.mem_free_zone then
      let m1 := store_next s.bytes s.mem_free_zone zone
      let m2 := store_size m1 zone real_size
      let m3 := store_next m2 zone s.mem_free_zone
      let mfz := if zone < s.mem_free_zone then zone else s.mem_free_zone
      match mem_fusion_bytes fuel { s with mem_free_zone := mfz, bytes := m3 } mfz with
      | none => none
      | some (_, s1) => some (0, s1)
    else if s.mem_free_zone < zone then
      match free_scan_bytes s zone fuel s.mem_free_zone with
      | none => none
      | some senti =>
        if senti < zone then
          match find_prev_bytes s.bytes s.mem_free_zone fuel senti with
          | none => none
          | some last =>
            let m3 := link_after_bytes s.bytes last zone real_size s.mem_free_zone
            match mem_fusion_bytes fuel { s with bytes := m3 } s.mem_free_zone with
            | none => none
            | some (_, s1) => some (0, s1)
        else
          match find_prev_bytes s.bytes senti fuel senti with
          | none => none
          | some prev =>
            let m3 := link_after_bytes s.bytes prev zone real_size senti
            match mem_fusion_bytes fuel { s with bytes := m3 } s.mem_free_zone with
            | none => none
            | some (_, s1) => some (0, s1)
    else
      match find_prev_bytes s.bytes s.mem_free_zone fuel s.mem_free_zone with
      | none => none
      | some prev =>
        let m3 := link_after_bytes s.bytes prev zone real_size s.mem_free_zone
        match mem_fusion_bytes fuel { s with mem_free_zone := zone, bytes := m3 } zone with
        | none => none
        | some (_, s1) => some (0, s1)

/-- The loop of `mem_show` on bytes: the list of the printed pairs. -/
def show_loop_bytes (m : Nat → Nat) (senti : Nat) : Nat → Nat → Option (List (Nat × Nat))
  | 0, _ => none
  | fuel + 1, cur =>
    if cur = 0 then none
    else if next_at m cur ≠ senti then
      (show_loop_bytes m senti fuel (next_at m cur)).map (fun l => (cur, size_at m cur) :: l)
    else
      some [(cur, size_at m cur)]

/-- The function `mem_show` on bytes: the returned code and the calls made to
`print`, in order. -/
def mem_show_bytes (fuel : Nat) (s : ByteHeap) : Option (Nat × List (Nat × Nat)) :=
  if s.mem_free_zone = 0 then some (1, [])
  else (show_loop_bytes s.bytes s.mem_free_zone fuel s.mem_free_zone).map (fun l => (0, l))

/-- An arena of 65536 bytes at address 4096 whose free list is the one block
`(4188, 8)`, 8 bytes long: its header occupies `[4188, 4204)`, with `next` (the
block itself) in `[4196, 4204)`.  The zone `[4196, 12196)` that follows is
allocated; the caller has stored in it the words `16, 6000` at address 8000
and `2000, 4188` at address 6000.  All other bytes are zero. -/
def short_block : ByteHeap :=
  { mem_heap := 4096, mem_free_zone := 4188, mem_size := 65536,
    bytes :=
      store_word (store_word (store_word (store_word (store_next (store_size (fun _ => 0)
        4188 8) 4188 4188) 8000 16) 8008 6000) 6000 2000) 6008 4188 }

/-- An arena of 4096 bytes at address 4096 whose free list is the one block
`(4186, 10)`, 10 bytes long; all other bytes are zero. -/
def ten_bytes_block : ByteHeap :=
  { mem_heap := 4096, mem_free_zone := 4186, mem_size := 4096,
    bytes := store_next (store_size (fun _ => 0) 4186 10) 4186 4186 }

/-! ## Header records against bytes -/

/-- The header read from the bytes at address `a`. -/
def header_at (m : Nat → Nat) (a : Nat) : free_zone := ⟨size_at m a, next_at m a⟩

/-- The globals of `b` with the headers read from its bytes. -/
def headers (b : ByteHeap) : Heap := ⟨b.mem_heap, b.mem_free_zone, b.mem_size, header_at b.bytes⟩

/-- The header records `z` are the ones read from the bytes `m` at the addresses of `A`. -/
def Agree (A : List Nat) (z : Nat → free_zone) (m : Nat → Nat) : Prop :=
  ∀ a ∈ A, z a = header_at m a

/-- The addresses of `A` are at least 16 bytes, the size of a header, apart. -/
def Apart (A : List Nat) : Prop :=
  ∀ a ∈ A, ∀ c ∈ A, a ≠ c → a + 16 ≤ c ∨ c + 16 ≤ a

/-- The `next` of every header at an address of `C` is an address of `A`. -/
def Closed (C A : List Nat) (z : Nat → free_zone) : Prop :=
  ∀ a ∈ C, (z a).next ∈ A

/-- The state `s` on header records and the state `b` on bytes have the same
globals and the same headers at the addresses of `A`, which contain
`mem_free_zone` and the `next` of each other. -/
def Sim (A : List Nat) (s : Heap) (b : ByteHeap) : Prop :=
  s.mem_heap = b.mem_heap ∧ s.mem_free_zone = b.mem_free_zone ∧ s.mem_size = b.mem_size ∧
  Agree A s.zones b.bytes ∧ Closed A A s.zones ∧ s.mem_free_zone ∈ A

/-- The state `three_blocks` on bytes. -/
def three_blocks_bytes : ByteHeap :=
  { mem_heap := 4096, mem_free_zone := 4096, mem_size := 4096,
    bytes := store_next (store_size (store_next (store_size (store_next (store_size
      (fun _ => 0) 4096 16) 4096 4196) 4196 32) 4196 4296) 4296 64) 4296 4096 }

/-! ## Argument checks and failures -/

theorem r_size_eq_max (H size : Nat) : r_size H size = max size H := by
  unfold r_size
  split
  · exact (max_eq_left (by assumption)).symm
  · exact (max_eq_right (by omega)).symm

theorem le_r_size (H size : Nat) : size ≤ r_size H size := by
  rw [r_size_eq_max]; exact le_max_left _ _

/-- A result of `alloc_search` started at `mem_free_zone` or at any other
address is `mem_free_zone` itself or an address that was dereferenced. -/
theorem alloc_search_ne_zero (H : Nat) (s : Heap) (rs : Nat) (hmfz : s.mem_free_zone ≠ 0) :
    ∀ (fuel a r : Nat), alloc_search H s rs fuel a = some r → r ≠ 0 := by
  intro fuel
  induction fuel with
  | zero => intro a r h; simp [alloc_search] at h
  | succ n ih =>
    intro a r h
    unfold alloc_search at h
    split at h
    · split at h
      · simp at h
      · split at h
        · exact ih _ _ h
        · simp at h; omega
    · simp at h; omega

/-- C8: `mem_free(zone, size)` returns 1 exactly when `zone` is null, `size == 0`,
`size > mem_size`, `zone < mem_heap`, `zone >= mem_heap + mem_size`, or
`zone + max(size, H) > mem_heap + mem_size`; the one-past-the-end address
`mem_heap + mem_size` is rejected for every size. -/
theorem mem_free_returns_one_iff (H fuel : Nat) (s : Heap) (zone size : Nat) :
    ((∃ s', mem_free H fuel s zone size = some (1, s')) ↔
      (zone = 0 ∨ size = 0 ∨ size > s.mem_size ∨ zone < s.mem_heap ∨
        zone ≥ s.mem_heap + s.mem_size ∨
        zone + max size H > s.mem_heap + s.mem_size)) ∧
    mem_free H fuel s (s.mem_heap + s.mem_size) size = some (1, s) := by
  have hrs := le_r_size H size
  rw [← r_size_eq_max]
  constructor
  · unfold mem_free
    by_cases h1 : zone = 0 ∨ size = 0 ∨ size > s.mem_size ∨ zone < s.mem_heap
        ∨ zone > s.mem_heap + s.mem_size
    · rw [if_pos h1]
      constructor
      · intro _
        omega
      · intro _
        exact ⟨s, rfl⟩
    · rw [if_neg h1]
      simp only []
      by_cases h2 : zone + r_size H size > s.mem_heap + s.mem_size
      · rw [if_pos h2]
        constructor
        · intro _
          omega
        · intro _
          exact ⟨s, rfl⟩
      · rw [if_neg h2]
        constructor
        · rintro ⟨s', hs'⟩
          exfalso
          repeat' split at hs'
          all_goals simp at hs'
        · intro h
          omega
  · unfold mem_free
    by_cases h1 : s.mem_heap + s.mem_size = 0 ∨ size = 0 ∨ size > s.mem_size
        ∨ s.mem_heap + s.mem_size < s.mem_heap
        ∨ s.mem_heap + s.mem_size > s.mem_heap + s.mem_size
    · rw [if_pos h1]
    · rw [if_neg h1]
      simp only []
      rw [if_pos (by omega)]

/-- C9: a `mem_alloc` that returns null and a `mem_free` that returns 1 leave the
state (`mem_free_zone`, `mem_size`, every header) as it was, and `mem_alloc(0)`
returns null in every state. -/
theorem failures_leave_state_unchanged (H fuel : Nat) (s s' : Heap) (zone size : Nat) :
    (mem_alloc H fuel s size = some (0, s') → s' = s) ∧
    (mem_free H fuel s zone size = some (1, s') → s' = s) ∧
    mem_alloc H fuel s 0 = some (0, s) := by
  refine ⟨?_, ?_, ?_⟩
  · intro h
    unfold mem_alloc at h
    by_cases h1 : s.mem_free_zone = 0 ∨ size = 0
    · rw [if_pos h1] at h
      simp at h
      exact h.symm
    · rw [if_neg h1] at h
      simp only [] at h
      have hm : s.mem_free_zone ≠ 0 := fun hc => h1 (Or.inl hc)
      split at h
      · simp at h
      · rename_i senti hsearch
        have hne := alloc_search_ne_zero H s _ hm _ _ _ hsearch
        repeat' split at h
        all_goals simp at h
        all_goals first | omega | exact h.symm
  · intro h
    unfold mem_free at h
    by_cases h1 : zone = 0 ∨ size = 0 ∨ size > s.mem_size ∨ zone < s.mem_heap
        ∨ zone > s.mem_heap + s.mem_size
    · rw [if_pos h1] at h
      simp at h
      exact h.symm
    · rw [if_neg h1] at h
      simp only [] at h
      by_cases h2 : zone + r_size H size > s.mem_heap + s.mem_size
      · rw [if_pos h2] at h
        simp at h
        exact h.symm
      · rw [if_neg h2] at h
        exfalso
        repeat' split at h
        all_goals simp at h
  · simp [mem_alloc]

/-- Witness of `failures_leave_state_unchanged`: in the state `two_blocks`,
`mem_alloc(5000)` returns null and `mem_free(4095, 8)` returns 1. -/
theorem failures_leave_state_unchanged_witness :
    mem_alloc 16 2 two_blocks 5000 = some (0, two_blocks) ∧
    mem_free 16 2 two_blocks 4095 8 = some (1, two_blocks) ∧
    two_blocks = two_blocks :=
  ⟨rfl, rfl, (failures_leave_state_unchanged 16 2 two_blocks two_blocks 4095 5000).1 rfl⟩

/-! ## The scenario of the specification -/

/-- C10: with `HEAP_SIZE = 4096` and `H = 16`, `mem_init; mem_alloc(100);
mem_alloc(3996); mem_free(base+100, 3996); mem_free(base, 100)` returns the
addresses `base` and `base + 100`, the free list is `[(base+100, 3996)]`, then
empty, then `[(base+100, 3996)]`, and at the end the single self-referential
block `(base, 4096)` with head `base`, as after `mem_init`. -/
theorem scenario_4096 (base fuel : Nat) (s : Heap) (hb : base ≠ 0) :
    ∃ s0 s1 s2 s3 s4,
      mem_init 4096 base s = (0, s0) ∧
      mem_show (fuel + 2) s0 = some (0, [(base, 4096)]) ∧
      s0.mem_free_zone = base ∧ s0.zones base = ⟨4096, base⟩ ∧
      mem_alloc 16 (fuel + 2) s0 100 = some (base, s1) ∧
      mem_show (fuel + 2) s1 = some (0, [(base + 100, 3996)]) ∧
      mem_alloc 16 (fuel + 2) s1 3996 = some (base + 100, s2) ∧
      mem_show (fuel + 2) s2 = some (1, []) ∧ s2.mem_free_zone = 0 ∧
      mem_free 16 (fuel + 2) s2 (base + 100) 3996 = some (0, s3) ∧
      mem_show (fuel + 2) s3 = some (0, [(base + 100, 3996)]) ∧
      mem_free 16 (fuel + 2) s3 base 100 = some (0, s4) ∧
      mem_show (fuel + 2) s4 = some (0, [(base, 4096)]) ∧
      s4.mem_free_zone = base ∧ s4.zones base = ⟨4096, base⟩ := by
  obtain ⟨s0, h0, a0, b0, c0, d0⟩ : ∃ s0, mem_init 4096 base s = (0, s0)
      ∧ s0.mem_heap = base ∧ s0.mem_size = 4096 ∧ s0.mem_free_zone = base
      ∧ s0.zones base = ⟨4096, base⟩ := by
    simp [mem_init, hb, write_size, write_next]
  obtain ⟨s1, h1, a1, b1, c1, d1⟩ : ∃ s1, mem_alloc 16 (fuel + 2) s0 100 = some (base, s1)
      ∧ s1.mem_heap = base ∧ s1.mem_size = 4096 ∧ s1.mem_free_zone = base + 100
      ∧ s1.zones (base + 100) = ⟨3996, base + 100⟩ := by
    simp [mem_alloc, a0, b0, c0, d0, hb, r_size, alloc_search, write_size, write_next]
  obtain ⟨s2, h2, a2, b2, c2⟩ : ∃ s2, mem_alloc 16 (fuel + 2) s1 3996 = some (base + 100, s2)
      ∧ s2.mem_heap = base ∧ s2.mem_size = 4096 ∧ s2.mem_free_zone = 0 := by
    simp [mem_alloc, r_size, alloc_search, a1, b1, c1, d1]
  obtain ⟨s3, h3, a3, b3, c3, d3⟩ :
      ∃ s3, mem_free 16 (fuel + 2) s2 (base + 100) 3996 = some (0, s3)
      ∧ s3.mem_heap = base ∧ s3.mem_size = 4096 ∧ s3.mem_free_zone = base + 100
      ∧ s3.zones (base + 100) = ⟨3996, base + 100⟩ := by
    simp [mem_free, r_size, a2, b2, c2, write_size, write_next]
  obtain ⟨s4, h4, _, _, c4, d4⟩ : ∃ s4, mem_free 16 (fuel + 2) s3 base 100 = some (0, s4)
      ∧ s4.mem_heap = base ∧ s4.mem_size = 4096 ∧ s4.mem_free_zone = base
      ∧ s4.zones base = ⟨4096, base⟩ := by
    simp [mem_free, r_size, a3, b3, c3, d3, hb, write_size, write_next, mem_fusion,
      fusion_loop, fusion_merge, ULONG_MOD]
  refine ⟨s0, s1, s2, s3, s4, h0, ?_, c0, d0, h1, ?_, h2, ?_, c2, h3, ?_, h4, ?_, c4, d4⟩
  · simp [mem_show, show_loop, c0, d0, hb]
  · simp [mem_show, show_loop, c1, d1]
  · simp [mem_show, show_loop, c2]
  · simp [mem_show, show_loop, c3, d3]
  · simp [mem_show, show_loop, c4, d4, hb]

/-- Witness of `scenario_4096`: the arena at address 4096, from the blank state. -/
theorem scenario_4096_witness :
    (4096 : Nat) ≠ 0 ∧
    ∃ s0 s1 s2 s3 s4,
      mem_init 4096 4096 blank = (0, s0) ∧
      mem_show (0 + 2) s0 = some (0, [(4096, 4096)]) ∧
      s0.mem_free_zone = 4096 ∧ s0.zones 4096 = ⟨4096, 4096⟩ ∧
      mem_alloc 16 (0 + 2) s0 100 = some (4096, s1) ∧
      mem_show (0 + 2) s1 = some (0, [(4096 + 100, 3996)]) ∧
      mem_alloc 16 (0 + 2) s1 3996 = some (4096 + 100, s2) ∧
      mem_show (0 + 2) s2 = some (1, []) ∧ s2.mem_free_zone = 0 ∧
      mem_free 16 (0 + 2) s2 (4096 + 100) 3996 = some (0, s3) ∧
      mem_show (0 + 2) s3 = some (0, [(4096 + 100, 3996)]) ∧
      mem_free 16 (0 + 2) s3 4096 100 = some (0, s4) ∧
      mem_show (0 + 2) s4 = some (0, [(4096, 4096)]) ∧
      s4.mem_free_zone = 4096 ∧ s4.zones 4096 = ⟨4096, 4096⟩ :=
  ⟨by decide, scenario_4096 4096 0 blank (by decide)⟩

/-! ## `mem_alloc` at the inputs where it leaves its contract -/

/-- C1, the code at the failing input: after `mem_init` with `HEAP_SIZE = 4096`
and `H = 16` the only free block has size 4096, strictly between
`r_size(4090) = 4090` and `4090 + 16`, a size `not_ok` refuses; `mem_alloc(4090)`
nevertheless allocates from it and returns its address instead of `NULL`. -/
theorem mem_alloc_takes_unchecked_head (fuel : Nat) :
    mem_show (fuel + 1) (mem_init 4096 4096 blank).2 = some (0, [(4096, 4096)]) ∧
    r_size 16 4090 = 4090 ∧
    not_ok 16 (mem_init 4096 4096 blank).2.zones 4096 4090 = 1 ∧
    ∃ s', mem_alloc 16 (fuel + 1) (mem_init 4096 4096 blank).2 4090 = some (4096, s') := by
  refine ⟨?_, by decide, ?_, ?_⟩
  · simp [mem_show, show_loop, mem_init, blank, write_size, write_next]
  · simp [not_ok, mem_init, blank, write_size, write_next]
  · simp [mem_alloc, alloc_search, mem_init, blank, write_size, write_next, r_size]

/-- C7, the code at the failing input: from the state left by `mem_init` with
`HEAP_SIZE = 4096` and `H = 16`, `mem_alloc(4090)` splits the only block and
leaves the free list `[(4096 + 4090, 6)]`, a block smaller than `H`. -/
theorem mem_alloc_leaves_small_remainder (fuel : Nat) :
    ∃ s', mem_alloc 16 (fuel + 1) (mem_init 4096 4096 blank).2 4090 = some (4096, s') ∧
      mem_show (fuel + 1) s' = some (0, [(8186, 6)]) := by
  simp [mem_alloc, alloc_search, mem_init, blank, write_size, write_next, r_size,
    mem_show, show_loop]

/-- C2, the code at the failing input: `two_blocks` has the free list
`[(4096, 100), (4296, 3896)]`; `mem_alloc(50)` returns 4096 and leaves
`mem_free_zone` at 4096 with the header `(100, 4296)`, so the first block
traversed from `mem_free_zone` still covers the range `[4096, 4146)` handed out. -/
theorem mem_alloc_keeps_stale_head (fuel : Nat) :
    FreeListIs two_blocks [(4096, 100), (4296, 3896)] ∧
    ∃ s', mem_alloc 16 (fuel + 1) two_blocks 50 = some (4096, s') ∧
      s'.mem_free_zone = 4096 ∧ s'.zones 4096 = ⟨100, 4296⟩ := by
  refine ⟨by simp [FreeListIs, Seg, two_blocks], ?_⟩
  simp [mem_alloc, alloc_search, find_prev, two_blocks, write_size, write_next, r_size]

/-- A traversal from the head 4096 that enters the two-node cycle
`4296 → 4146 → 4296` never comes back to the head: `mem_show` has no result. -/
theorem mem_show_stuck (s : Heap) (h0 : s.mem_free_zone = 4096)
    (hn : (s.zones 4096).next = 4296) (h1 : (s.zones 4296).next = 4146)
    (h2 : (s.zones 4146).next = 4296) (fuel : Nat) : mem_show fuel s = none := by
  have key : ∀ (n cur : Nat), cur = 4296 ∨ cur = 4146 →
      show_loop s.zones 4096 n cur = none := by
    intro n
    induction n with
    | zero => intro cur _; rfl
    | succ n ih =>
      intro cur hcur
      rcases hcur with rfl | rfl
      · simp [show_loop, h1, ih 4146 (Or.inr rfl)]
      · simp [show_loop, h2, ih 4296 (Or.inl rfl)]
  cases fuel with
  | zero => simp [mem_show, show_loop, h0]
  | succ n => simp [mem_show, show_loop, h0, hn, key n 4296 (Or.inl rfl)]

/-- C3, the code at the failing input: with `HEAP_SIZE = 4096` and `H = 16`,
`mem_init; mem_alloc(100); mem_alloc(100); mem_free(4096, 100); mem_alloc(50)`
leaves `mem_free_zone` on the block just handed out: the headers reached from
it are `(4096, 100)`, `(4296, 3896)`, `(4146, 50)`, the chain never returns to
`mem_free_zone`, and their sizes plus the live `100 + 50` bytes are not 4096. -/
theorem conservation_fails_after_head_split :
    ∃ s1 s2 s3 s4,
      mem_alloc 16 2 (mem_init 4096 4096 blank).2 100 = some (4096, s1) ∧
      mem_alloc 16 2 s1 100 = some (4196, s2) ∧
      mem_free 16 2 s2 4096 100 = some (0, s3) ∧
      mem_show 2 s3 = some (0, [(4096, 100), (4296, 3896)]) ∧
      mem_alloc 16 2 s3 50 = some (4096, s4) ∧
      s4.mem_free_zone = 4096 ∧ s4.zones 4096 = ⟨100, 4296⟩ ∧
      s4.zones 4296 = ⟨3896, 4146⟩ ∧ s4.zones 4146 = ⟨50, 4296⟩ ∧
      (∀ fuel, mem_show fuel s4 = none) ∧
      (100 + 3896 + 50) + (100 + 50) ≠ 4096 := by
  refine ⟨_, _, _, _, rfl, rfl, rfl, rfl, rfl, rfl, rfl, rfl, rfl, ?_, by decide⟩
  exact mem_show_stuck _ (by rfl) (by rfl) (by rfl) (by rfl)

/-- C4, the code at the failing input: `three_blocks` has the free list
`[(4096, 16), (4196, 32), (4296, 64)]`; `mem_alloc(32)` returns 4196 and moves
`mem_free_zone` to 4296, and `mem_free(4196, 32)` then returns 0 with the free
list `[(4196, 32), (4296, 64), (4096, 16)]` headed at 4196, not the list before
the allocation. -/
theorem alloc_free_changes_list :
    ∃ s1 s2,
      mem_show 3 three_blocks = some (0, [(4096, 16), (4196, 32), (4296, 64)]) ∧
      three_blocks.mem_free_zone = 4096 ∧
      mem_alloc 16 3 three_blocks 32 = some (4196, s1) ∧
      s1.mem_free_zone = 4296 ∧
      mem_free 16 3 s1 4196 32 = some (0, s2) ∧
      mem_show 3 s2 = some (0, [(4196, 32), (4296, 64), (4096, 16)]) ∧
      s2.mem_free_zone = 4196 :=
  ⟨_, _, rfl, rfl, rfl, rfl, rfl, rfl, rfl⟩

/-! ## Chains of headers -/

theorem seg_nil (z : Nat → free_zone) (a b : Nat) : Seg z a [] b ↔ a = b := Iff.rfl

theorem seg_cons (z : Nat → free_zone) (x : Nat × Nat) (l : List (Nat × Nat)) (a b : Nat) :
    Seg z a (x :: l) b ↔ a = x.1 ∧ a ≠ 0 ∧ (z a).size = x.2 ∧ Seg z (z a).next l b :=
  Iff.rfl

theorem seg_append (z : Nat → free_zone) :
    ∀ (l1 l2 : List (Nat × Nat)) (a c : Nat),
      Seg z a (l1 ++ l2) c ↔ ∃ b, Seg z a l1 b ∧ Seg z b l2 c := by
  intro l1
  induction l1 with
  | nil => intro l2 a c; simp [seg_nil]
  | cons x l1 ih =>
    intro l2 a c
    rw [List.cons_append, seg_cons, ih]
    simp only [seg_cons]
    constructor
    · rintro ⟨h1, h2, h3, b, h4, h5⟩
      exact ⟨b, ⟨h1, h2, h3, h4⟩, h5⟩
    · rintro ⟨b, ⟨h1, h2, h3, h4⟩, h5⟩
      exact ⟨h1, h2, h3, b, h4, h5⟩

theorem seg_frame (z z1 : Nat → free_zone) :
    ∀ (l : List (Nat × Nat)) (a b : Nat), (∀ x ∈ l, z1 x.1 = z x.1) →
      Seg z a l b → Seg z1 a l b := by
  intro l
  induction l with
  | nil => intro a b _ h; exact h
  | cons x l ih =>
    intro a b hz h
    obtain ⟨h1, h2, h3, h4⟩ := h
    have hx : z1 a = z a := by rw [h1]; exact hz x (List.mem_cons_self _ _)
    refine ⟨h1, h2, ?_, ?_⟩
    · rw [hx]; exact h3
    · rw [hx]; exact ih _ _ (fun y hy => hz y (List.mem_cons_of_mem _ hy)) h4

theorem seg_head (z : Nat → free_zone) (x : Nat × Nat) (l : List (Nat × Nat)) (a b : Nat)
    (h : Seg z a (x :: l) b) : a = x.1 ∧ x.1 ≠ 0 ∧ (z x.1).size = x.2 := by
  obtain ⟨h1, h2, h3, _⟩ := h
  subst h1
  exact ⟨rfl, h2, h3⟩

/-- A chain that is closed by one more block `b` can be read from `b`. -/
theorem seg_rotate (z : Nat → free_zone) (l : List (Nat × Nat)) (b : Nat × Nat) (h : Nat)
    (hs : Seg z h (l ++ [b]) h) : Seg z b.1 (b :: l) b.1 := by
  obtain ⟨m, h1, h2⟩ := (seg_append z l [b] h h).1 hs
  obtain ⟨h2, h3, h4, h5⟩ := h2
  have h5 : (z m).next = h := h5
  rw [← h2]
  exact ⟨h2, h3, h4, by rw [h5]; exact h1⟩

/-! ## The loops on a chain -/

theorem find_prev_seg (z : Nat → free_zone) (t p sp : Nat) :
    ∀ (A : List (Nat × Nat)) (a fuel : Nat), Seg z a (A ++ [(p, sp)]) t →
      t ∉ ((A ++ [(p, sp)]).tail.map Prod.fst) → A.length < fuel →
      find_prev z t fuel a = some p := by
  intro A
  induction A with
  | nil =>
    intro a fuel hs _ hf
    obtain ⟨h1, h2, _, h4⟩ := hs
    have h4 : (z a).next = t := h4
    have h1 : a = p := h1
    subst h1
    cases fuel with
    | zero => simp at hf
    | succ n => simp [find_prev, h2, h4]
  | cons x A ih =>
    intro a fuel hs ht hf
    obtain ⟨h1, h2, _, h4⟩ := hs
    cases fuel with
    | zero => simp at hf
    | succ n =>
      have hne : (z a).next ≠ t := by
        intro hc
        apply ht
        cases A with
        | nil =>
          have := (seg_head z _ _ _ _ h4).1
          simp at this ⊢
          omega
        | cons y A =>
          have := (seg_head z _ _ _ _ h4).1
          simp at this ⊢
          left; omega
      have ht2 : t ∉ ((A ++ [(p, sp)]).tail.map Prod.fst) := by
        intro hc
        apply ht
        simp only [List.cons_append, List.tail_cons]
        rw [List.mem_map] at hc ⊢
        obtain ⟨y, hy, hy2⟩ := hc
        exact ⟨y, List.mem_of_mem_tail hy, hy2⟩
      simp only [find_prev, if_neg h2, hne, ne_eq, not_false_eq_true, if_true]
      exact ih _ _ h4 ht2 (by simp at hf; omega)

theorem show_loop_seg (z : Nat → free_zone) (t p sp : Nat) :
    ∀ (A : List (Nat × Nat)) (a fuel : Nat), Seg z a (A ++ [(p, sp)]) t →
      t ∉ ((A ++ [(p, sp)]).tail.map Prod.fst) → A.length < fuel →
      show_loop z t fuel a = some (A ++ [(p, sp)]) := by
  intro A
  induction A with
  | nil =>
    intro a fuel hs _ hf
    obtain ⟨h1, h2, h3, h4⟩ := hs
    have h4 : (z a).next = t := h4
    have h1 : a = p := h1
    have h3 : (z a).size = sp := h3
    subst h1
    cases fuel with
    | zero => simp at hf
    | succ n => simp [show_loop, h2, h4, h3]
  | cons x A ih =>
    intro a fuel hs ht hf
    obtain ⟨h1, h2, h3, h4⟩ := hs
    cases fuel with
    | zero => simp at hf
    | succ n =>
      have hne : (z a).next ≠ t := by
        intro hc
        apply ht
        cases A with
        | nil =>
          have := (seg_head z _ _ _ _ h4).1
          simp at this ⊢
          omega
        | cons y A =>
          have := (seg_head z _ _ _ _ h4).1
          simp at this ⊢
          left; omega
      have ht2 : t ∉ ((A ++ [(p, sp)]).tail.map Prod.fst) := by
        intro hc
        apply ht
        simp only [List.cons_append, List.tail_cons]
        rw [List.mem_map] at hc ⊢
        obtain ⟨y, hy, hy2⟩ := hc
        exact ⟨y, List.mem_of_mem_tail hy, hy2⟩
      simp only [show_loop, if_neg h2, hne, ne_eq, not_false_eq_true, if_true]
      rw [ih _ _ h4 ht2 (by simp at hf; omega)]
      simp only [Option.map_some', List.cons_append, Option.some.injEq, List.cons.injEq,
        and_true]
      exact Prod.ext h1 h3

theorem free_scan_seg (s : Heap) (zone t : Nat) :
    ∀ (P : List (Nat × Nat)) (x : Nat × Nat) (a fuel : Nat), Seg s.zones a (x :: P) t →
      (∀ y ∈ P, y.1 ≠ s.mem_free_zone ∧ y.1 < zone) →
      ¬ (t ≠ s.mem_free_zone ∧ t < zone) → P.length < fuel →
      free_scan s zone fuel a = some t := by
  intro P
  induction P with
  | nil =>
    intro x a fuel hs _ ht hf
    obtain ⟨_, h2, _, h4⟩ := hs
    have h4 : (s.zones a).next = t := h4
    cases fuel with
    | zero => simp at hf
    | succ n =>
      simp only [free_scan, if_neg h2, h4, if_neg ht]
  | cons y P ih =>
    intro x a fuel hs hP ht hf
    obtain ⟨_, h2, _, h4⟩ := hs
    have hy := (seg_head _ _ _ _ _ h4).1
    cases fuel with
    | zero => simp at hf
    | succ n =>
      have hc := hP y (List.mem_cons_self _ _)
      rw [← hy] at hc
      simp only [free_scan, if_neg h2, if_pos hc]
      exact ih y _ _ h4 (fun w hw => hP w (List.mem_cons_of_mem _ hw)) ht
        (by simp at hf; omega)

/-! ## Sorted, disjoint blocks -/

theorem blocks_le (hi : Nat) :
    ∀ (l : List (Nat × Nat)) (lo : Nat), Blocks lo hi l → lo ≤ hi := by
  intro l
  induction l with
  | nil => intro lo h; exact h
  | cons y l ih =>
    intro lo h
    have := ih _ h.2.2
    have := h.1
    omega

theorem blocks_mem (hi : Nat) :
    ∀ (l : List (Nat × Nat)) (lo : Nat), Blocks lo hi l →
      ∀ x ∈ l, lo ≤ x.1 ∧ 0 < x.2 ∧ x.1 + x.2 ≤ hi := by
  intro l
  induction l with
  | nil => intro lo _ x hx; simp at hx
  | cons y l ih =>
    intro lo h x hx
    obtain ⟨h1, h2, h3⟩ := h
    rcases List.mem_cons.1 hx with rfl | hx
    · exact ⟨h1, h2, blocks_le hi l _ h3⟩
    · have := ih _ h3 x hx
      omega

theorem blocks_of_pairwise (hi : Nat) :
    ∀ (l : List (Nat × Nat)) (lo : Nat), lo ≤ hi →
      l.Pairwise (fun x y => x.1 < y.1 ∧ x.1 + x.2 ≤ y.1) →
      (∀ x ∈ l, lo ≤ x.1 ∧ 0 < x.2 ∧ x.1 + x.2 ≤ hi) → Blocks lo hi l := by
  intro l
  induction l with
  | nil => intro lo h _ _; exact h
  | cons y l ih =>
    intro lo _ hp hb
    rw [List.pairwise_cons] at hp
    have hy := hb y (List.mem_cons_self _ _)
    refine ⟨hy.1, hy.2.1, ih _ hy.2.2 hp.2 ?_⟩
    intro x hx
    have h1 := hp.1 x hx
    have h2 := hb x (List.mem_cons_of_mem _ hx)
    omega

theorem blocks_sorted (hi : Nat) :
    ∀ (l : List (Nat × Nat)) (lo : Nat), Blocks lo hi l →
      l.Pairwise (fun x y => x.1 < y.1) := by
  intro l
  induction l with
  | nil => intro lo _; exact List.Pairwise.nil
  | cons y l ih =>
    intro lo h
    obtain ⟨_, h2, h3⟩ := h
    rw [List.pairwise_cons]
    refine ⟨?_, ih _ h3⟩
    intro x hx
    have := blocks_mem hi l _ h3 x hx
    omega

theorem blocks_nodup (hi : Nat) (l : List (Nat × Nat)) (lo : Nat) (h : Blocks lo hi l) :
    (l.map Prod.fst).Nodup := by
  have hs := blocks_sorted hi l lo h
  rw [List.Nodup, List.pairwise_map]
  exact hs.imp (fun h => Nat.ne_of_lt h)

/-! ## Insertion and fusion on lists of blocks -/

theorem blocks_insert (hi : Nat) (b : Nat × Nat) (hb : 0 < b.2) (hbhi : b.1 + b.2 ≤ hi) :
    ∀ (l : List (Nat × Nat)) (lo : Nat), Blocks lo hi l → lo ≤ b.1 →
      (∀ x ∈ l, b.1 + b.2 ≤ x.1 ∨ x.1 + x.2 ≤ b.1) → Blocks lo hi (insert_block b l) := by
  intro l
  induction l with
  | nil => intro lo _ hlo _; exact ⟨hlo, hb, hbhi⟩
  | cons y l ih =>
    intro lo h hlo hd
    obtain ⟨h1, h2, h3⟩ := h
    have hy := hd y (List.mem_cons_self _ _)
    unfold insert_block
    split
    · exact ⟨hlo, hb, by omega, h2, h3⟩
    · exact ⟨h1, h2, ih _ h3 (by omega) (fun x hx => hd x (List.mem_cons_of_mem _ hx))⟩

/-- The blocks below the freed one, then the freed one, then the blocks above it. -/
theorem insert_block_split (hi : Nat) (b : Nat × Nat) (hb : 0 < b.2) :
    ∀ (l : List (Nat × Nat)) (lo : Nat), Blocks lo hi l →
      (∀ x ∈ l, b.1 + b.2 ≤ x.1 ∨ x.1 + x.2 ≤ b.1) →
      ∃ pre suf, l = pre ++ suf ∧ (∀ x ∈ pre, x.1 < b.1) ∧ (∀ y ∈ suf, b.1 < y.1) ∧
        insert_block b l = pre ++ b :: suf := by
  intro l
  induction l with
  | nil => intro lo _ _; exact ⟨[], [], rfl, by simp, by simp, rfl⟩
  | cons y l ih =>
    intro lo h hd
    obtain ⟨_, h2, h3⟩ := h
    have hy := hd y (List.mem_cons_self _ _)
    by_cases hlt : b.1 < y.1
    · refine ⟨[], y :: l, rfl, by simp, ?_, by simp [insert_block, hlt]⟩
      intro w hw
      rcases List.mem_cons.1 hw with rfl | hw
      · exact hlt
      · have := blocks_mem hi l _ h3 w hw
        omega
    · obtain ⟨pre, suf, e1, e2, e3, e4⟩ :=
        ih _ h3 (fun x hx => hd x (List.mem_cons_of_mem _ hx))
      refine ⟨y :: pre, suf, by rw [e1]; rfl, ?_, e3, by simp [insert_block, hlt, e4]⟩
      intro w hw
      rcases List.mem_cons.1 hw with rfl | hw
      · omega
      · exact e2 w hw

theorem blocks_fuse (hi : Nat) :
    ∀ (todo : List (Nat × Nat)) (c : Nat × Nat) (lo : Nat), Blocks lo hi (c :: todo) →
      Blocks lo hi (fuse c todo) := by
  intro todo
  induction todo with
  | nil => intro c lo h; exact h
  | cons b r ih =>
    intro c lo h
    obtain ⟨h1, h2, h3, h4, h5⟩ := h
    unfold fuse
    split
    · rename_i hadj
      apply ih
      refine ⟨h1, by simp; omega, ?_⟩
      have e : c.1 + (c.2 + b.2) = b.1 + b.2 := by omega
      simp only [e]
      exact h5
    · exact ⟨h1, h2, ih b _ ⟨h3, h4, h5⟩⟩

/-- After the pass, every block ends strictly before the next ones start. -/
theorem fuse_apart (hi : Nat) :
    ∀ (todo : List (Nat × Nat)) (c : Nat × Nat) (lo : Nat), Blocks lo hi (c :: todo) →
      (fuse c todo).Pairwise (fun x y => x.1 + x.2 < y.1) := by
  intro todo
  induction todo with
  | nil => intro c lo _; simp [fuse]
  | cons b r ih =>
    intro c lo h
    obtain ⟨h1, h2, h3, h4, h5⟩ := h
    unfold fuse
    split
    · rename_i hadj
      apply ih (c.1, c.2 + b.2) lo
      refine ⟨h1, by simp; omega, ?_⟩
      have e : c.1 + (c.2 + b.2) = b.1 + b.2 := by omega
      simp only [e]
      exact h5
    · rename_i hadj
      rw [List.pairwise_cons]
      refine ⟨?_, ih b b.1 ⟨le_refl _, h4, h5⟩⟩
      intro y hy
      have := blocks_mem hi _ _ (blocks_fuse hi r b b.1 ⟨le_refl _, h4, h5⟩) y hy
      omega

theorem fuse_length (todo : List (Nat × Nat)) :
    ∀ (c : Nat × Nat), (fuse c todo).length ≤ todo.length + 1 := by
  induction todo with
  | nil => intro c; simp [fuse]
  | cons b r ih =>
    intro c
    unfold fuse
    split
    · have := ih (c.1, c.2 + b.2)
      simp; omega
    · have := ih b
      simp; omega

theorem fuse_head (todo : List (Nat × Nat)) :
    ∀ (c : Nat × Nat), ∃ sz r, fuse c todo = (c.1, sz) :: r := by
  induction todo with
  | nil => intro c; exact ⟨c.2, [], rfl⟩
  | cons b r ih =>
    intro c
    unfold fuse
    split
    · exact ih (c.1, c.2 + b.2)
    · exact ⟨c.2, fuse b r, rfl⟩

theorem insert_block_length (b : Nat × Nat) (l : List (Nat × Nat)) :
    (insert_block b l).length = l.length + 1 := by
  induction l with
  | nil => rfl
  | cons y l ih =>
    unfold insert_block
    split
    · simp
    · simp [ih]

/-- In a list whose blocks end strictly before the later ones start, no block
ends where a block starts. -/
theorem apart_no_adjacent :
    ∀ (l : List (Nat × Nat)), l.Pairwise (fun x y => x.1 + x.2 < y.1) →
      (∀ x ∈ l, 0 < x.2) → ∀ A ∈ l, ∀ B ∈ l, A.1 + A.2 ≠ B.1 := by
  intro l
  induction l with
  | nil => intro _ _ A hA; simp at hA
  | cons y l ih =>
    intro hp hpos A hA B hB
    rw [List.pairwise_cons] at hp
    have hy := hpos y (List.mem_cons_self _ _)
    rcases List.mem_cons.1 hA with eA | hA <;> rcases List.mem_cons.1 hB with eB | hB
    · rw [eA, eB]
      omega
    · have := hp.1 B hB
      rw [eA]
      omega
    · have := hp.1 A hA
      rw [eB]
      omega
    · exact ih hp.2 (fun x hx => hpos x (List.mem_cons_of_mem _ hx)) A hA B hB

/-! ## Linking the freed zone into the chain -/

theorem write_size_next (z : Nat → free_zone) (a v x : Nat) :
    (write_size z a v x).next = (z x).next := by
  simp only [write_size]
  split <;> rfl

theorem link_after_eq (z : Nat → free_zone) (p zone rs nxt : Nat) :
    link_after z p zone rs nxt
      = write_next (write_size (write_next z p zone) zone rs) zone nxt := by
  have e1 : (write_next z p zone p).next = zone := by simp [write_next]
  have e2 : (write_size (write_next z p zone) zone rs p).next = zone := by
    simp only [write_size]
    split <;> exact e1
  simp only [link_after, e1, e2]

theorem link_after_at_zone (z : Nat → free_zone) (p zone rs nxt : Nat) :
    link_after z p zone rs nxt zone = ⟨rs, nxt⟩ := by
  rw [link_after_eq]
  simp [write_next, write_size]

theorem link_after_at_prev (z : Nat → free_zone) (p zone rs nxt : Nat) (h : p ≠ zone) :
    link_after z p zone rs nxt p = ⟨(z p).size, zone⟩ := by
  rw [link_after_eq]
  simp [write_next, write_size, h]

theorem link_after_other (z : Nat → free_zone) (p zone rs nxt a : Nat) (h1 : a ≠ p)
    (h2 : a ≠ zone) : link_after z p zone rs nxt a = z a := by
  rw [link_after_eq]
  simp [write_next, write_size, h1, h2]

/-- Linking `zone` behind the block `p` of a chain puts the block `(zone, rs)`
right after `p` in the list of the chain. -/
theorem seg_link_after (z : Nat → free_zone) (A B : List (Nat × Nat))
    (h p zone rs nxt e : Nat) (hA : Seg z h A p) (hp : p ≠ 0) (hB : Seg z nxt B e)
    (hAne : ∀ x ∈ A, x.1 ≠ p ∧ x.1 ≠ zone) (hBne : ∀ x ∈ B, x.1 ≠ p ∧ x.1 ≠ zone)
    (hpz : p ≠ zone) (hz : zone ≠ 0) :
    Seg (link_after z p zone rs nxt) h (A ++ (p, (z p).size) :: (zone, rs) :: B) e := by
  rw [seg_append]
  refine ⟨p, ?_, ?_⟩
  · exact seg_frame z _ A h p
      (fun x hx => link_after_other z p zone rs nxt x.1 (hAne x hx).1 (hAne x hx).2) hA
  · rw [seg_cons, link_after_at_prev z p zone rs nxt hpz]
    refine ⟨rfl, hp, rfl, ?_⟩
    rw [seg_cons, link_after_at_zone]
    refine ⟨rfl, hz, rfl, ?_⟩
    exact seg_frame z _ B nxt e
      (fun x hx => link_after_other z p zone rs nxt x.1 (hBne x hx).1 (hBne x hx).2) hB

/-! ## `mem_fusion` on a sorted chain -/

theorem fusion_merge_spec (s : Heap) (c b nb : Nat) (csz bsz : Nat)
    (hc : s.zones c = ⟨csz, b⟩) (hb : s.zones b = ⟨bsz, nb⟩) (hbh : b ≠ s.mem_free_zone)
    (hw : csz + bsz < ULONG_MOD) :
    fusion_merge s c
      = { s with zones := write_next (write_size s.zones c (csz + bsz)) c nb } := by
  unfold fusion_merge
  simp only [hc, hb, Nat.mod_eq_of_lt hw]
  have e1 : (write_size s.zones c (csz + bsz) c).next = b := by
    rw [write_size_next, hc]
  have e2 : (write_size s.zones c (csz + bsz) b).next = nb := by
    rw [write_size_next, hb]
  simp only [e1, e2, if_neg hbh]

theorem fusion_loop_spec (h hi : Nat) (hhi : hi < ULONG_MOD) :
    ∀ (todo D : List (Nat × Nat)) (c : Nat × Nat) (s : Heap) (fuel : Nat),
      Seg s.zones h (D ++ c :: todo) h → Blocks c.1 hi (c :: todo) →
      (∀ d ∈ D, d.1 < c.1) → s.mem_free_zone = h → h ≤ c.1 → todo.length < fuel →
      ∃ s1 e, fusion_loop h fuel s c.1 = some (s1, e) ∧
        e + (s1.zones e).size ≠ (s1.zones e).next ∧
        Seg s1.zones h (D ++ fuse c todo) h ∧ s1.mem_free_zone = h ∧
        s1.mem_heap = s.mem_heap ∧ s1.mem_size = s.mem_size := by
  intro todo
  induction todo with
  | nil =>
    intro D c s fuel hseg hbl hD hmfz hle hf
    obtain ⟨m, h1, h2⟩ := (seg_append _ _ _ _ _).1 hseg
    obtain ⟨h2, h3, h4, h5⟩ := h2
    have h5 : (s.zones m).next = h := h5
    subst h2
    cases fuel with
    | zero => simp at hf
    | succ n =>
      refine ⟨s, c.1, ?_, ?_, hseg, hmfz, rfl, rfl⟩
      · simp [fusion_loop, h3, h5]
      · rw [h4, h5]
        have := hbl.2.1
        omega
  | cons b r ih =>
    intro D c s fuel hseg hbl hD hmfz hle hf
    obtain ⟨m, h1, h2⟩ := (seg_append _ _ _ _ _).1 hseg
    obtain ⟨h2, h3, h4, h5⟩ := h2
    subst h2
    obtain ⟨h6, h7, h8, h9⟩ := h5
    rw [h6] at h7 h8 h9
    obtain ⟨k1, k2, k3, k4, k5⟩ := hbl
    have hbne : b.1 ≠ h := by omega
    cases fuel with
    | zero => simp at hf
    | succ n =>
      by_cases hadj : c.1 + c.2 = b.1
      · -- the current block absorbs its successor
        have hw : c.2 + b.2 < ULONG_MOD := by
          have := blocks_le hi r _ k5
          omega
        have hzc : s.zones c.1 = ⟨c.2, b.1⟩ := by
          rw [← h4, ← h6]
        have hzb : s.zones b.1 = ⟨b.2, (s.zones b.1).next⟩ := by
          rw [← h8]
        have hm := fusion_merge_spec s c.1 b.1 (s.zones b.1).next c.2 b.2 hzc hzb
          (by omega) hw
        have hfr : ∀ a, a ≠ c.1 →
            write_next (write_size s.zones c.1 (c.2 + b.2)) c.1 (s.zones b.1).next a
              = s.zones a := by
          intro a ha
          simp [write_next, write_size, ha]
        have hseg2 : Seg (fusion_merge s c.1).zones h (D ++ (c.1, c.2 + b.2) :: r) h := by
          rw [hm, seg_append]
          refine ⟨c.1, ?_, ?_⟩
          · exact seg_frame _ _ D h c.1
              (fun x hx => hfr x.1 (Nat.ne_of_lt (hD x hx))) h1
          · rw [seg_cons]
            refine ⟨rfl, h3, by simp [write_next, write_size], ?_⟩
            have e : (write_next (write_size s.zones c.1 (c.2 + b.2)) c.1
                (s.zones b.1).next c.1).next = (s.zones b.1).next := by
              simp [write_next, write_size]
            simp only [e]
            refine seg_frame _ _ r _ h (fun x hx => ?_) h9
            apply hfr
            have := blocks_mem hi r _ k5 x hx
            omega
        have hbl2 : Blocks (c.1, c.2 + b.2).1 hi ((c.1, c.2 + b.2) :: r) := by
          refine ⟨le_refl _, by simp; omega, ?_⟩
          have e : c.1 + (c.2 + b.2) = b.1 + b.2 := by omega
          simp only [e]
          exact k5
        obtain ⟨s1, e, r1, r2, r3, r4, r5, r6⟩ :=
          ih D (c.1, c.2 + b.2) (fusion_merge s c.1) n hseg2 hbl2 hD
            (by rw [hm]; exact hmfz) hle (by simp at hf; omega)
        refine ⟨s1, e, ?_, r2, ?_, r4, ?_, ?_⟩
        · simp only [fusion_loop, if_neg h3, h4, h6, hbne, ne_eq, not_false_eq_true, if_true,
            if_pos hadj]
          exact r1
        · simp only [fuse, if_pos hadj]
          exact r3
        · rw [r5, hm]
        · rw [r6, hm]
      · -- the walk moves to the successor
        have hseg2 : Seg s.zones h ((D ++ [c]) ++ b :: r) h := by
          rw [List.append_assoc]
          exact hseg
        obtain ⟨s1, e, r1, r2, r3, r4, r5, r6⟩ :=
          ih (D ++ [c]) b s n hseg2 ⟨le_refl _, k4, k5⟩
            (by
              intro d hd
              rcases List.mem_append.1 hd with hd | hd
              · have := hD d hd
                omega
              · simp at hd
                rw [hd]
                omega)
            hmfz (by omega) (by simp at hf; omega)
        refine ⟨s1, e, ?_, r2, ?_, r4, r5, r6⟩
        · simp only [fusion_loop, if_neg h3, h4, h6, hbne, ne_eq, not_false_eq_true, if_true,
            if_neg hadj]
          exact r1
        · simp only [fuse, if_neg hadj]
          rw [List.append_assoc] at r3
          exact r3

theorem mem_fusion_spec (hi : Nat) (hhi : hi < ULONG_MOD) (s : Heap) (c : Nat × Nat)
    (todo : List (Nat × Nat)) (fuel : Nat)
    (hseg : Seg s.zones s.mem_free_zone (c :: todo) s.mem_free_zone)
    (hbl : Blocks c.1 hi (c :: todo)) (hf : todo.length < fuel) :
    ∃ s1, mem_fusion fuel s s.mem_free_zone = some (0, s1) ∧
      Seg s1.zones s1.mem_free_zone (fuse c todo) s1.mem_free_zone ∧
      s1.mem_heap = s.mem_heap ∧ s1.mem_size = s.mem_size := by
  have hc := (seg_head _ _ _ _ _ hseg).1
  obtain ⟨s1, e, r1, r2, r3, r4, r5, r6⟩ :=
    fusion_loop_spec s.mem_free_zone hi hhi todo [] c s fuel hseg hbl (by simp) rfl
      (by omega) hf
  refine ⟨s1, ?_, by rw [r4]; exact r3, r5, r6⟩
  rw [hc] at r1 ⊢
  simp only [mem_fusion, r1, if_neg r2]

/-- A circular chain of distinct blocks is what `mem_show` prints. -/
theorem mem_show_spec (s : Heap) (x : Nat × Nat) (r : List (Nat × Nat)) (fuel : Nat)
    (h : FreeListIs s (x :: r)) (hf : (x :: r).length ≤ fuel) :
    mem_show fuel s = some (0, x :: r) := by
  obtain ⟨hseg, hnd⟩ := h
  have hx := seg_head _ _ _ _ _ hseg
  have hm : s.mem_free_zone ≠ 0 := by rw [hx.1]; exact hx.2.1
  obtain ⟨A, q, hq⟩ : ∃ A q, x :: r = A ++ [q] := by
    rcases List.eq_nil_or_concat (x :: r) with h0 | ⟨A, q, h1⟩
    · simp at h0
    · exact ⟨A, q, by rw [h1]; simp⟩
  have hnot : s.mem_free_zone ∉ ((A ++ [(q.1, q.2)]).tail.map Prod.fst) := by
    rw [show (q.1, q.2) = q from rfl, ← hq, List.tail_cons, hx.1]
    rw [List.map_cons, List.nodup_cons] at hnd
    exact hnd.1
  have hlen : A.length < fuel := by
    have := congrArg List.length hq
    simp at this hf
    omega
  have := show_loop_seg s.zones s.mem_free_zone q.1 q.2 A s.mem_free_zone fuel
    (by rw [show (q.1, q.2) = q from rfl, ← hq]; exact hseg) hnot hlen
  simp only [mem_show, if_neg hm, this]
  rw [show (q.1, q.2) = q from rfl, ← hq]
  rfl

/-! ## The insertion of `mem_free` on a sorted chain -/

/-- Tail and head insertion: the predecessor of the head is the last block, and
the freed zone is linked between it and the head. -/
theorem link_last (z : Nat → free_zone) (l : List (Nat × Nat)) (h zone rs fuel : Nat)
    (hseg : Seg z h l h) (hne : l ≠ []) (hsorted : l.Pairwise (fun x y => x.1 < y.1))
    (hzone : ∀ x ∈ l, x.1 ≠ zone) (hz : zone ≠ 0) (hf : l.length ≤ fuel) :
    ∃ p, find_prev z h fuel h = some p ∧
      Seg (link_after z p zone rs h) h (l ++ [(zone, rs)]) h := by
  obtain ⟨A, q, hq⟩ : ∃ A q, l = A ++ [q] := by
    rcases List.eq_nil_or_concat l with h0 | ⟨A, q, h1⟩
    · exact absurd h0 hne
    · exact ⟨A, q, by rw [h1]; simp⟩
  have hnot : h ∉ ((A ++ [(q.1, q.2)]).tail.map Prod.fst) := by
    rw [show (q.1, q.2) = q from rfl, ← hq]
    cases l with
    | nil => exact absurd rfl hne
    | cons x r =>
      have hx := (seg_head _ _ _ _ _ hseg).1
      rw [List.pairwise_cons] at hsorted
      rw [List.tail_cons, List.mem_map]
      rintro ⟨w, hw, hw2⟩
      have := hsorted.1 w hw
      omega
  subst hq
  have hseg1 := hseg
  obtain ⟨m, h1, h2⟩ := (seg_append _ _ _ _ _).1 hseg
  obtain ⟨h2, h3, h4, h5⟩ := h2
  have h5 : (z m).next = h := h5
  subst h2
  rw [List.pairwise_append] at hsorted
  refine ⟨q.1, ?_, ?_⟩
  · exact find_prev_seg z h q.1 q.2 A h fuel hseg1 hnot (by simp at hf; omega)
  · have := seg_link_after z A [] h q.1 zone rs h h h1 h3 rfl
      (fun x hx => ⟨Nat.ne_of_lt (hsorted.2.2 x hx q (List.mem_singleton_self _)),
        hzone x (List.mem_append_left _ hx)⟩)
      (by simp) (hzone q (by simp)) hz
    rw [h4] at this
    rw [List.append_assoc]
    exact this

/-- Middle insertion: the predecessor of the first block `y` above the freed
zone is the last block below it, and the freed zone is linked between them. -/
theorem link_middle (z : Nat → free_zone) (pre S : List (Nat × Nat)) (y : Nat × Nat)
    (h zone rs fuel : Nat) (hseg : Seg z h (pre ++ y :: S) h) (hne : pre ≠ [])
    (hsorted : (pre ++ y :: S).Pairwise (fun x y => x.1 < y.1))
    (hzone : ∀ x ∈ pre ++ y :: S, x.1 ≠ zone) (hz : zone ≠ 0)
    (hf : (pre ++ y :: S).length ≤ fuel) :
    ∃ p, find_prev z y.1 fuel y.1 = some p ∧
      Seg (link_after z p zone rs y.1) h (pre ++ (zone, rs) :: y :: S) h := by
  obtain ⟨A, q, hq⟩ : ∃ A q, pre = A ++ [q] := by
    rcases List.eq_nil_or_concat pre with h0 | ⟨A, q, h1⟩
    · exact absurd h0 hne
    · exact ⟨A, q, by rw [h1]; simp⟩
  subst hq
  obtain ⟨m, h1, h2⟩ := (seg_append _ _ _ _ _).1 hseg
  have h1' := h1
  obtain ⟨m2, g1, g2⟩ := (seg_append _ _ _ _ _).1 h1
  obtain ⟨g2, g3, g4, g5⟩ := g2
  subst g2
  rw [List.pairwise_append] at hsorted
  obtain ⟨s1, s2, s3⟩ := hsorted
  rw [List.pairwise_append] at s1
  rw [List.pairwise_cons] at s2
  have hrot : Seg z m (((y :: S) ++ A) ++ [(q.1, q.2)]) m := by
    rw [List.append_assoc, seg_append]
    exact ⟨h, h2, h1'⟩
  have hnot : m ∉ ((((y :: S) ++ A) ++ [(q.1, q.2)]).tail.map Prod.fst) := by
    rw [List.append_assoc, List.cons_append, List.tail_cons, List.mem_map]
    rintro ⟨w, hw, hw2⟩
    have hy := (seg_head _ _ _ _ _ h2).1
    rcases List.mem_append.1 hw with hw | hw
    · have := s2.1 w hw
      omega
    · have := s3 w hw y (List.mem_cons_self _ _)
      omega
  refine ⟨q.1, ?_, ?_⟩
  · have hy := (seg_head _ _ _ _ _ h2).1
    rw [← hy]
    exact find_prev_seg z m q.1 q.2 ((y :: S) ++ A) m fuel hrot hnot
      (by simp at hf ⊢; omega)
  · have hy := (seg_head _ _ _ _ _ h2).1
    have := seg_link_after z A (y :: S) h q.1 zone rs m h g1 g3 h2
      (fun x hx => ⟨Nat.ne_of_lt (s1.2.2 x hx q (List.mem_singleton_self _)),
        hzone x (List.mem_append_left _ (List.mem_append_left _ hx))⟩)
      (fun x hx => ⟨Nat.ne_of_gt (s3 q (by simp) x hx),
        hzone x (List.mem_append_right _ hx)⟩)
      (hzone q (by simp)) hz
    rw [g4] at this
    rw [List.append_assoc, ← hy]
    exact this

/-- The scan of `mem_free` stops on the first block above the freed zone, or
on the head when there is none. -/
theorem free_scan_sorted (s : Heap) (x0 : Nat × Nat) (P suf : List (Nat × Nat))
    (zone fuel : Nat)
    (hseg : Seg s.zones s.mem_free_zone (x0 :: P ++ suf) s.mem_free_zone)
    (hsorted : (x0 :: P ++ suf).Pairwise (fun x y => x.1 < y.1))
    (hP : ∀ y ∈ P, y.1 < zone) (hsuf : ∀ y ∈ suf, zone < y.1) (hf : P.length < fuel) :
    ∃ t, free_scan s zone fuel s.mem_free_zone = some t ∧
      Seg s.zones s.mem_free_zone (x0 :: P) t ∧ Seg s.zones t suf s.mem_free_zone ∧
      (suf = [] → t = s.mem_free_zone) ∧ (∀ y S, suf = y :: S → t = y.1) := by
  have hx := (seg_head _ _ _ _ _ hseg).1
  obtain ⟨t, h1, h2⟩ := (seg_append _ (x0 :: P) suf _ _).1 hseg
  rw [List.cons_append, List.pairwise_cons] at hsorted
  have ht : ¬ (t ≠ s.mem_free_zone ∧ t < zone) := by
    cases suf with
    | nil =>
      have : t = s.mem_free_zone := h2
      omega
    | cons y S =>
      have := (seg_head _ _ _ _ _ h2).1
      have := hsuf y (List.mem_cons_self _ _)
      omega
  refine ⟨t, ?_, h1, h2, ?_, ?_⟩
  · refine free_scan_seg s zone t P x0 _ fuel h1 ?_ ht hf
    intro w hw
    have := hsorted.1 w (List.mem_append_left _ hw)
    have := hP w hw
    omega
  · intro he
    subst he
    exact h2
  · intro y S he
    subst he
    exact (seg_head _ _ _ _ _ h2).1

theorem freeListIs_of_seg (s : Heap) (l : List (Nat × Nat)) (hne : l ≠ [])
    (hseg : Seg s.zones s.mem_free_zone l s.mem_free_zone)
    (hnd : (l.map Prod.fst).Nodup) : FreeListIs s l := by
  cases l with
  | nil => exact absurd rfl hne
  | cons x r => exact ⟨hseg, hnd⟩

/-- The end of `mem_free`: `mem_fusion` on the chain with the freed zone in place. -/
theorem fusion_after_insert (hi : Nat) (hhi : hi < ULONG_MOD) (s0 : Heap)
    (L : List (Nat × Nat)) (fuel : Nat) (hne : L ≠ [])
    (hseg : Seg s0.zones s0.mem_free_zone L s0.mem_free_zone)
    (hbl : Blocks 0 hi L) (hf : L.length ≤ fuel) :
    ∃ s1, (match mem_fusion fuel s0 s0.mem_free_zone with
        | none => none
        | some (_, s1) => some ((0 : Nat), s1)) = some (0, s1) ∧
      FreeListIs s1 (coalesce L) ∧ s1.mem_heap = s0.mem_heap ∧
      s1.mem_size = s0.mem_size := by
  cases L with
  | nil => exact absurd rfl hne
  | cons c todo =>
    have hbl1 : Blocks c.1 hi (c :: todo) := ⟨le_refl _, hbl.2⟩
    obtain ⟨s1, r1, r2, r3, r4⟩ :=
      mem_fusion_spec hi hhi s0 c todo fuel hseg hbl1 (by simp at hf; omega)
    refine ⟨s1, by rw [r1], ?_, r3, r4⟩
    apply freeListIs_of_seg s1 _ _ r2
    · exact blocks_nodup hi _ _ (blocks_fuse hi todo c _ hbl1)
    · obtain ⟨sz, r, hr⟩ := fuse_head todo c
      show fuse c todo ≠ []
      rw [hr]
      simp

/-! ## `mem_free` on a sorted free list -/

/-- On a sorted free list of disjoint blocks, an accepted `mem_free(zone, size)`
returns 0 and leaves the free list `coalesce (insert_block (zone, r_size size) l)`. -/
theorem mem_free_spec (H fuel : Nat) (s : Heap) (l : List (Nat × Nat)) (zone size : Nat)
    (hlist : FreeListIs s l) (hbl : Blocks 0 (s.mem_heap + s.mem_size) l)
    (hword : s.mem_heap + s.mem_size < ULONG_MOD)
    (hz : zone ≠ 0) (hs : size ≠ 0) (hsz : size ≤ s.mem_size) (hlo : s.mem_heap ≤ zone)
    (hhi : zone + r_size H size ≤ s.mem_heap + s.mem_size)
    (hdisj : ∀ x ∈ l, zone + r_size H size ≤ x.1 ∨ x.1 + x.2 ≤ zone)
    (hfuel : l.length + 1 ≤ fuel) :
    ∃ s1, mem_free H fuel s zone size = some (0, s1) ∧
      FreeListIs s1 (coalesce (insert_block (zone, r_size H size) l)) ∧
      s1.mem_heap = s.mem_heap ∧ s1.mem_size = s.mem_size := by
  have hrs : 0 < r_size H size := by
    have := le_r_size H size
    omega
  have hc1 : ¬ (zone = 0 ∨ size = 0 ∨ size > s.mem_size ∨ zone < s.mem_heap
      ∨ zone > s.mem_heap + s.mem_size) := by omega
  have hc2 : ¬ (zone + r_size H size > s.mem_heap + s.mem_size) := by omega
  have hzne : ∀ x ∈ l, x.1 ≠ zone := by
    intro x hx
    have := hdisj x hx
    have := blocks_mem _ l 0 hbl x hx
    omega
  have hsorted := blocks_sorted _ l 0 hbl
  have hL : Blocks 0 (s.mem_heap + s.mem_size) (insert_block (zone, r_size H size) l) :=
    blocks_insert _ (zone, r_size H size) hrs hhi l 0 hbl (Nat.zero_le _) hdisj
  have hLlen := insert_block_length (zone, r_size H size) l
  unfold mem_free
  rw [if_neg hc1]
  simp only []
  rw [if_neg hc2]
  cases l with
  | nil =>
    have hm : s.mem_free_zone = 0 := hlist
    rw [if_pos hm]
    refine ⟨_, rfl, ?_, rfl, rfl⟩
    refine ⟨⟨rfl, hz, ?_, ?_⟩, by simp⟩
    · simp [write_next, write_size]
    · show (write_next (write_size s.zones zone (r_size H size)) zone zone zone).next = zone
      simp [write_next]
  | cons x0 rest =>
    obtain ⟨hseg, hnd⟩ := hlist
    have hx := seg_head _ _ _ _ _ hseg
    have hm : s.mem_free_zone ≠ 0 := by rw [hx.1]; exact hx.2.1
    have hmz : s.mem_free_zone ≠ zone := by
      rw [hx.1]; exact hzne x0 (List.mem_cons_self _ _)
    rw [if_neg hm]
    cases rest with
    | nil =>
      have hself : (s.zones s.mem_free_zone).next = s.mem_free_zone := hseg.2.2.2
      rw [if_pos hself, ← link_after_eq]
      have hlink := seg_link_after s.zones [] [] s.mem_free_zone s.mem_free_zone zone
        (r_size H size) s.mem_free_zone s.mem_free_zone rfl hm rfl (by simp) (by simp)
        hmz hz
      have hx0 : (s.mem_free_zone, (s.zones s.mem_free_zone).size) = x0 := by
        rw [hx.1, hx.2.2]
      rw [List.nil_append, hx0] at hlink
      by_cases hlt : zone < s.mem_free_zone
      · rw [if_pos hlt]
        have hLe : insert_block (zone, r_size H size) [x0] = [(zone, r_size H size), x0] := by
          have : zone < x0.1 := by rw [← hx.1]; exact hlt
          simp [insert_block, this]
        rw [hLe] at hL ⊢
        obtain ⟨s1, r1, r2, r3, r4⟩ := fusion_after_insert _ hword
          { s with mem_free_zone := zone,
                   zones := link_after s.zones s.mem_free_zone zone (r_size H size)
                     s.mem_free_zone }
          [(zone, r_size H size), x0] fuel (by simp)
          (seg_rotate _ [x0] (zone, r_size H size) _ hlink) hL (by simp at hfuel ⊢; omega)
        exact ⟨s1, r1, r2, r3, r4⟩
      · rw [if_neg hlt]
        have hLe : insert_block (zone, r_size H size) [x0] = [x0, (zone, r_size H size)] := by
          have : ¬ zone < x0.1 := by rw [← hx.1]; exact hlt
          simp [insert_block, this]
        rw [hLe] at hL ⊢
        obtain ⟨s1, r1, r2, r3, r4⟩ := fusion_after_insert _ hword
          { s with zones := link_after s.zones s.mem_free_zone zone (r_size H size)
                     s.mem_free_zone }
          [x0, (zone, r_size H size)] fuel (by simp) hlink hL (by simp at hfuel ⊢; omega)
        exact ⟨s1, r1, r2, r3, r4⟩
    | cons x1 r =>
      have hnext : (s.zones s.mem_free_zone).next ≠ s.mem_free_zone := by
        have h1 := (seg_head _ _ _ _ _ hseg.2.2.2).1
        rw [h1, hx.1]
        rw [List.pairwise_cons] at hsorted
        exact Nat.ne_of_gt (hsorted.1 x1 (List.mem_cons_self _ _))
      rw [if_neg hnext]
      by_cases hlt : s.mem_free_zone < zone
      · rw [if_pos hlt]
        obtain ⟨pre, suf, e1, e2, e3, e4⟩ :=
          insert_block_split _ (zone, r_size H size) hrs (x0 :: x1 :: r) 0 hbl hdisj
        cases pre with
        | nil =>
          exfalso
          have : x0 ∈ suf := by rw [List.nil_append] at e1; rw [← e1]; simp
          have := e3 x0 this
          simp only at this
          omega
        | cons x0' P =>
          have e0 : x0' = x0 := by
            rw [List.cons_append] at e1
            exact (List.cons.inj e1).1.symm
          subst e0
          obtain ⟨t, hscan, _, _, t1, t2⟩ := free_scan_sorted s x0' P suf zone fuel
            (by rw [← e1]; exact hseg)
            (by rw [← e1]; exact hsorted)
            (fun y hy => e2 y (List.mem_cons_of_mem _ hy)) e3
            (by
              have := congrArg List.length e1
              simp at this hfuel
              omega)
          rw [hscan]
          simp only []
          cases suf with
          | nil =>
            have ht := t1 rfl
            subst ht
            rw [if_pos hlt]
            obtain ⟨p, hfp, hsegL⟩ := link_last s.zones (x0' :: x1 :: r) s.mem_free_zone zone
              (r_size H size) fuel hseg (by simp) hsorted hzne hz (by omega)
            rw [hfp]
            simp only []
            have hLe : insert_block (zone, r_size H size) (x0' :: x1 :: r)
                = (x0' :: x1 :: r) ++ [(zone, r_size H size)] := by
              rw [e4, e1, List.append_nil]
            rw [hLe] at hL hLlen ⊢
            obtain ⟨s1, r1, r2, r3, r4⟩ := fusion_after_insert _ hword
              { s with zones := link_after s.zones p zone (r_size H size) s.mem_free_zone }
              ((x0' :: x1 :: r) ++ [(zone, r_size H size)]) fuel (by simp) hsegL hL (by omega)
            exact ⟨s1, r1, r2, r3, r4⟩
          | cons y S =>
            have ht := t2 y S rfl
            subst ht
            have hy := e3 y (List.mem_cons_self _ _)
            simp only at hy
            rw [if_neg (by omega)]
            rw [e1] at hseg hsorted hzne hfuel
            obtain ⟨p, hfp, hsegL⟩ := link_middle s.zones (x0' :: P) S y s.mem_free_zone zone
              (r_size H size) fuel hseg (by simp) hsorted hzne hz (by omega)
            rw [hfp]
            simp only []
            rw [e4] at hL hLlen ⊢
            obtain ⟨s1, r1, r2, r3, r4⟩ := fusion_after_insert _ hword
              { s with zones := link_after s.zones p zone (r_size H size) y.1 }
              ((x0' :: P) ++ (zone, r_size H size) :: y :: S) fuel (by simp) hsegL hL
              (by simp at hfuel ⊢; omega)
            exact ⟨s1, r1, r2, r3, r4⟩
      · rw [if_neg hlt]
        obtain ⟨p, hfp, hsegL⟩ := link_last s.zones (x0 :: x1 :: r) s.mem_free_zone zone
          (r_size H size) fuel hseg (by simp) hsorted hzne hz (by omega)
        rw [hfp]
        simp only []
        have hLe : insert_block (zone, r_size H size) (x0 :: x1 :: r)
            = (zone, r_size H size) :: x0 :: x1 :: r := by
          have : zone < x0.1 := by rw [← hx.1]; omega
          simp [insert_block, this]
        rw [hLe] at hL hLlen ⊢
        obtain ⟨s1, r1, r2, r3, r4⟩ := fusion_after_insert _ hword
          { s with mem_free_zone := zone,
                   zones := link_after s.zones p zone (r_size H size) s.mem_free_zone }
          ((zone, r_size H size) :: x0 :: x1 :: r) fuel (by simp)
          (seg_rotate _ (x0 :: x1 :: r) (zone, r_size H size) _ hsegL) hL (by omega)
        exact ⟨s1, r1, r2, r3, r4⟩

/-- The state and the free list left by an accepted `mem_free` on a sorted free
list: a circular chain, printed by `mem_show`, of sorted disjoint blocks none of
which ends where a later one starts. -/
theorem mem_free_result (H fuel : Nat) (s : Heap) (l : List (Nat × Nat)) (zone size : Nat)
    (hlist : FreeListIs s l)
    (hsorted : l.Pairwise (fun x y => x.1 < y.1 ∧ x.1 + x.2 ≤ y.1))
    (hblocks : ∀ x ∈ l, 0 < x.2 ∧ x.1 + x.2 ≤ s.mem_heap + s.mem_size)
    (hword : s.mem_heap + s.mem_size < ULONG_MOD)
    (hchecks : ¬ (zone = 0 ∨ size = 0 ∨ size > s.mem_size ∨ zone < s.mem_heap
        ∨ zone > s.mem_heap + s.mem_size)
      ∧ ¬ (zone + max size H > s.mem_heap + s.mem_size))
    (hdisj : ∀ x ∈ l, zone + max size H ≤ x.1 ∨ x.1 + x.2 ≤ zone)
    (hfuel : l.length + 1 ≤ fuel) :
    ∃ s1 x r, mem_free H fuel s zone size = some (0, s1) ∧ FreeListIs s1 (x :: r) ∧
      mem_show fuel s1 = some (0, x :: r) ∧ s1.mem_free_zone = x.1 ∧
      Blocks 0 (s.mem_heap + s.mem_size) (x :: r) ∧
      (x :: r).Pairwise (fun a b => a.1 + a.2 < b.1) := by
  rw [← r_size_eq_max] at hchecks
  simp only [← r_size_eq_max] at hdisj
  obtain ⟨hc1, hc2⟩ := hchecks
  have hbl : Blocks 0 (s.mem_heap + s.mem_size) l :=
    blocks_of_pairwise _ l 0 (Nat.zero_le _) hsorted
      (fun x hx => ⟨Nat.zero_le _, (hblocks x hx).1, (hblocks x hx).2⟩)
  have hrs : 0 < r_size H size := by
    have := le_r_size H size
    omega
  obtain ⟨s1, r1, r2, _, _⟩ := mem_free_spec H fuel s l zone size hlist hbl hword
    (by omega) (by omega) (by omega) (by omega) (by omega) hdisj hfuel
  have hL : Blocks 0 (s.mem_heap + s.mem_size) (insert_block (zone, r_size H size) l) :=
    blocks_insert _ (zone, r_size H size) hrs (by simp only; omega) l 0 hbl (Nat.zero_le _)
      hdisj
  have hLlen := insert_block_length (zone, r_size H size) l
  cases hi : insert_block (zone, r_size H size) l with
  | nil => rw [hi] at hLlen; simp at hLlen
  | cons c todo =>
    rw [hi] at hL hLlen r2
    obtain ⟨sz, r, hr⟩ := fuse_head todo c
    have hlen := fuse_length todo c
    have hbf := blocks_fuse _ todo c 0 hL
    have hap := fuse_apart _ todo c 0 hL
    have r2 : FreeListIs s1 (fuse c todo) := r2
    rw [hr] at r2 hlen hbf hap
    refine ⟨s1, (c.1, sz), r, r1, r2, ?_, ?_, hbf, hap⟩
    · exact mem_show_spec s1 _ _ fuel r2 (by simp at hLlen hlen ⊢; omega)
    · exact (seg_head _ _ _ _ _ r2.1).1

/-- C5, amended with the condition that every free block is at least
`H = sizeof(free_zone_t)` bytes long: on a free list that is empty or circular,
address-sorted from the head and made of disjoint blocks of at least `H` bytes,
a `mem_free(zone, size)` that passes the argument checks, with
`[zone, zone + max(size, H))` disjoint from every free block, returns 0 and
leaves a circular free list whose traversal from `mem_free_zone` is in strictly
ascending address order, `mem_free_zone` being the block of lowest address.
The headers of the free blocks and of the freed zone are then at least `H`
bytes apart, so that every assignment to a header changes that header alone
(`mem_free_bytes_agrees`: with `H = 16` the call on the bytes of memory returns
the same code and leaves the same free list).  The free blocks are spans of the
arena: each ends inside the arena, whose end is below `2 ^ 64`.  The list `l`
may be empty, a single block, or longer, and `zone` may fall before, between or
after its blocks. -/
theorem mem_free_keeps_list_sorted (H fuel : Nat) (s : Heap) (l : List (Nat × Nat))
    (zone size : Nat)
    (hH : 0 < H)
    (hlist : FreeListIs s l)
    (hsorted : l.Pairwise (fun x y => x.1 < y.1 ∧ x.1 + x.2 ≤ y.1))
    (hblocks : ∀ x ∈ l, H ≤ x.2 ∧ x.1 + x.2 ≤ s.mem_heap + s.mem_size)
    (hword : s.mem_heap + s.mem_size < ULONG_MOD)
    (hchecks : ¬ (zone = 0 ∨ size = 0 ∨ size > s.mem_size ∨ zone < s.mem_heap
        ∨ zone > s.mem_heap + s.mem_size)
      ∧ ¬ (zone + max size H > s.mem_heap + s.mem_size))
    (hdisj : ∀ x ∈ l, zone + max size H ≤ x.1 ∨ x.1 + x.2 ≤ zone)
    (hfuel : l.length + 1 ≤ fuel) :
    ∃ s1 l1, mem_free H fuel s zone size = some (0, s1) ∧ FreeListIs s1 l1 ∧
      mem_show fuel s1 = some (0, l1) ∧ l1.Pairwise (fun x y => x.1 < y.1) ∧
      (∃ x ∈ l1, x.1 = s1.mem_free_zone) ∧ (∀ x ∈ l1, s1.mem_free_zone ≤ x.1) := by
  have hpos : ∀ x ∈ l, 0 < x.2 ∧ x.1 + x.2 ≤ s.mem_heap + s.mem_size :=
    fun x hx => ⟨Nat.lt_of_lt_of_le hH (hblocks x hx).1, (hblocks x hx).2⟩
  obtain ⟨s1, x, r, r1, r2, r3, r4, r5, _⟩ :=
    mem_free_result H fuel s l zone size hlist hsorted hpos hword hchecks hdisj hfuel
  have hs := blocks_sorted _ _ _ r5
  refine ⟨s1, x :: r, r1, r2, r3, hs, ⟨x, List.mem_cons_self _ _, r4.symm⟩, ?_⟩
  intro y hy
  rw [List.pairwise_cons] at hs
  rcases List.mem_cons.1 hy with e | hy
  · rw [e, r4]
  · have := hs.1 y hy
    omega

/-- Witness of `mem_free_keeps_list_sorted`: tail insertion of `(4400, 20)` into
the free list of `three_blocks`, whose blocks are 16, 32 and 64 bytes long. -/
theorem mem_free_keeps_list_sorted_witness :
    ∃ s1 l1, mem_free 16 4 three_blocks 4400 20 = some (0, s1) ∧ FreeListIs s1 l1 ∧
      mem_show 4 s1 = some (0, l1) ∧ l1.Pairwise (fun x y => x.1 < y.1) ∧
      (∃ x ∈ l1, x.1 = s1.mem_free_zone) ∧ (∀ x ∈ l1, s1.mem_free_zone ≤ x.1) :=
  mem_free_keeps_list_sorted 16 4 three_blocks [(4096, 16), (4196, 32), (4296, 64)] 4400 20
    (by decide) (by simp [FreeListIs, Seg, three_blocks]) (by simp) (by simp [three_blocks])
    (by simp [three_blocks, ULONG_MOD]) (by simp [three_blocks]) (by simp) (by simp)

/-- C5 as stated, without a lower bound on the size of the free blocks, fails on
the bytes of memory.  The free list of `short_block` is the single block
`(4188, 8)`: circular, sorted, without overlap.  The call
`mem_free(4196, 8000)` passes the argument checks and `[4196, 12196)` is
disjoint from `[4188, 4196)`.  The header of the block is 16 bytes long and
its `next` lies in `[4196, 4204)`, where `((free_zone_t *) zone)->size = 8000`
is written, so the free list now goes from 4188 to address 8000, inside the
freed zone.  `mem_free` returns 0 and the traversal from `mem_free_zone` is
`(4188, 8), (8000, 16), (6000, 2000)`: 8000 comes before 6000, and the freed
zone is not in the list. -/
theorem mem_free_bytes_breaks_order :
    mem_show_bytes 2 short_block = some (0, [(4188, 8)]) ∧
    ¬ (4196 = 0 ∨ 8000 = 0 ∨ 8000 > short_block.mem_size ∨ 4196 < short_block.mem_heap
        ∨ 4196 > short_block.mem_heap + short_block.mem_size) ∧
    ¬ (4196 + max 8000 16 > short_block.mem_heap + short_block.mem_size) ∧
    (4196 + max 8000 16 ≤ 4188 ∨ 4188 + 8 ≤ 4196) ∧
    ∃ s1, mem_free_bytes 4 short_block 4196 8000 = some (0, s1) ∧
      s1.mem_free_zone = 4188 ∧
      mem_show_bytes 4 s1 = some (0, [(4188, 8), (8000, 16), (6000, 2000)]) ∧
      ¬ [(4188, 8), (8000, 16), (6000, 2000)].Pairwise (fun x y => x.1 < y.1) :=
  ⟨rfl, by decide, by decide, by decide, _, rfl, rfl, rfl, by decide⟩

/-- C6, amended with the condition that every free block is at least
`H = sizeof(free_zone_t)` bytes long: on a free list that is empty or circular,
address-sorted from the head and made of disjoint blocks of at least `H` bytes,
a `mem_free(zone, size)` that passes the argument checks, with
`[zone, zone + max(size, H))` disjoint from every free block, returns 0 and
leaves a free list in which no two blocks `A`, `B` satisfy
`A.start + A.size == B.start`, whether the freed block touched free neighbours
on both sides or the list already held adjacent blocks (nothing is assumed about
adjacency before the call).  The headers of the free blocks and of the freed
zone are then at least `H` bytes apart, so that every assignment to a header
changes that header alone (`mem_free_bytes_agrees`: with `H = 16` the call on
the bytes of memory returns the same code and leaves the same free list).  The
free blocks are spans of the arena: each ends inside the arena, whose end is
below `2 ^ 64`. -/
theorem mem_free_leaves_no_adjacent_blocks (H fuel : Nat) (s : Heap) (l : List (Nat × Nat))
    (zone size : Nat)
    (hH : 0 < H)
    (hlist : FreeListIs s l)
    (hsorted : l.Pairwise (fun x y => x.1 < y.1 ∧ x.1 + x.2 ≤ y.1))
    (hblocks : ∀ x ∈ l, H ≤ x.2 ∧ x.1 + x.2 ≤ s.mem_heap + s.mem_size)
    (hword : s.mem_heap + s.mem_size < ULONG_MOD)
    (hchecks : ¬ (zone = 0 ∨ size = 0 ∨ size > s.mem_size ∨ zone < s.mem_heap
        ∨ zone > s.mem_heap + s.mem_size)
      ∧ ¬ (zone + max size H > s.mem_heap + s.mem_size))
    (hdisj : ∀ x ∈ l, zone + max size H ≤ x.1 ∨ x.1 + x.2 ≤ zone)
    (hfuel : l.length + 1 ≤ fuel) :
    ∃ s1 l1, mem_free H fuel s zone size = some (0, s1) ∧ FreeListIs s1 l1 ∧
      mem_show fuel s1 = some (0, l1) ∧ ∀ A ∈ l1, ∀ B ∈ l1, A.1 + A.2 ≠ B.1 := by
  have hpos : ∀ x ∈ l, 0 < x.2 ∧ x.1 + x.2 ≤ s.mem_heap + s.mem_size :=
    fun x hx => ⟨Nat.lt_of_lt_of_le hH (hblocks x hx).1, (hblocks x hx).2⟩
  obtain ⟨s1, x, r, r1, r2, r3, _, r5, r6⟩ :=
    mem_free_result H fuel s l zone size hlist hsorted hpos hword hchecks hdisj hfuel
  exact ⟨s1, x :: r, r1, r2, r3,
    apart_no_adjacent _ r6 (fun y hy => (blocks_mem _ _ _ r5 y hy).2.1)⟩

/-- Witness of `mem_free_leaves_no_adjacent_blocks`: the zone `(4228, 68)` touches
the blocks `(4196, 32)` and `(4296, 64)` of `three_blocks` on both sides. -/
theorem mem_free_leaves_no_adjacent_blocks_witness :
    ∃ s1 l1, mem_free 16 4 three_blocks 4228 68 = some (0, s1) ∧ FreeListIs s1 l1 ∧
      mem_show 4 s1 = some (0, l1) ∧ ∀ A ∈ l1, ∀ B ∈ l1, A.1 + A.2 ≠ B.1 :=
  mem_free_leaves_no_adjacent_blocks 16 4 three_blocks [(4096, 16), (4196, 32), (4296, 64)]
    4228 68
    (by decide) (by simp [FreeListIs, Seg, three_blocks]) (by simp) (by simp [three_blocks])
    (by simp [three_blocks, ULONG_MOD]) (by simp [three_blocks]) (by simp) (by simp)

/-- C6 as stated, without a lower bound on the size of the free blocks, fails on
the bytes of memory.  On `short_block`, whose free list is the single block
`(4188, 8)`, the call `mem_free(4196, 8000)` passes the argument checks and
`[4196, 12196)` is disjoint from `[4188, 4196)`.  The assignment
`((free_zone_t *) zone)->size = 8000` overwrites the `next` of the block, and
`mem_free` returns 0 with the free list `(4188, 8), (8000, 16), (6000, 2000)`:
the block `A = (6000, 2000)` ends at 8000, where the block `B = (8000, 16)`
starts.  `mem_fusion` compares a block with its successor only, and the
successor of `A` is the head. -/
theorem mem_free_bytes_leaves_adjacent_blocks :
    mem_show_bytes 2 short_block = some (0, [(4188, 8)]) ∧
    ¬ (4196 = 0 ∨ 8000 = 0 ∨ 8000 > short_block.mem_size ∨ 4196 < short_block.mem_heap
        ∨ 4196 > short_block.mem_heap + short_block.mem_size) ∧
    ¬ (4196 + max 8000 16 > short_block.mem_heap + short_block.mem_size) ∧
    (4196 + max 8000 16 ≤ 4188 ∨ 4188 + 8 ≤ 4196) ∧
    ∃ s1 l1, mem_free_bytes 4 short_block 4196 8000 = some (0, s1) ∧
      mem_show_bytes 4 s1 = some (0, l1) ∧
      ∃ A ∈ l1, ∃ B ∈ l1, A = (6000, 2000) ∧ B = (8000, 16) ∧ A.1 + A.2 = B.1 :=
  ⟨rfl, by decide, by decide, by decide, _, [(4188, 8), (8000, 16), (6000, 2000)], rfl, rfl,
    (6000, 2000), by simp, (8000, 16), by simp, rfl, rfl, rfl⟩

/-- The free list `(4188, 8)` of `short_block` is the one left by `mem_init` on
an arena of 65536 bytes at address 4096 followed by `mem_alloc(100)`,
`mem_alloc(8000)`, `mem_alloc(57436)`, `mem_free(4096, 100)` and
`mem_alloc(92)`: the last call takes 92 bytes of the block `(4096, 100)` and
leaves a block of 8 bytes, and the zone `[4196, 12196)` is the one returned by
`mem_alloc(8000)`. -/
theorem short_block_is_reachable :
    ∃ s1 s2 s3,
      alloc_run 16 2 (mem_init 65536 4096 blank).2 [100, 8000, 57436]
        = some ([4096, 4196, 12196], s1) ∧
      mem_free 16 2 s1 4096 100 = some (0, s2) ∧
      mem_alloc 16 2 s2 92 = some (4096, s3) ∧
      mem_show 2 s3 = some (0, [(4188, 8)]) ∧
      s3.mem_heap = short_block.mem_heap ∧ s3.mem_size = short_block.mem_size ∧
      s3.mem_free_zone = short_block.mem_free_zone :=
  ⟨_, _, _, rfl, rfl, rfl, rfl, rfl, rfl, rfl⟩

/-- On `ten_bytes_block`, whose free list is the single block `(4186, 10)`, the
call `mem_free(4196, 100)` writes `next = 4196` in `[4194, 4202)` and then
`size = 100` in `[4196, 4204)`: the `next` of the block becomes
`0x641064 = 6557796`, an address outside the arena, which `mem_fusion` follows.
With zero bytes there the loop reaches `NULL`, and the call has no result
whatever the bound on the iterations. -/
theorem mem_free_bytes_follows_overwritten_next :
    mem_show_bytes 2 ten_bytes_block = some (0, [(4186, 10)]) ∧
    next_at (store_next (store_size (store_next ten_bytes_block.bytes 4186 4196) 4196 100)
      4196 4186) 4186 = 6557796 ∧
    ∀ fuel, mem_free_bytes fuel ten_bytes_block 4196 100 = none := by
  refine ⟨rfl, rfl, ?_⟩
  intro fuel
  match fuel with
  | 0 => rfl
  | 1 => rfl
  | 2 => rfl
  | n + 3 => rfl

/-! ## The header records are exact when the headers are 16 bytes apart -/

/-- A word below `2 ^ 64` that was written at `a` is read back at `a`. -/
theorem load_store_same (m : Nat → Nat) (a v : Nat) (hv : v < ULONG_MOD) :
    load_word (store_word m a v) a = v := by
  unfold ULONG_MOD at hv
  simp only [load_word, store_word]
  have e : ∀ i, i < 8 → (a ≤ a + i ∧ a + i < a + 8) := fun i hi => ⟨by omega, by omega⟩
  rw [if_pos (by omega : a ≤ a ∧ a < a + 8), if_pos (e 1 (by omega)), if_pos (e 2 (by omega)),
    if_pos (e 3 (by omega)), if_pos (e 4 (by omega)), if_pos (e 5 (by omega)),
    if_pos (e 6 (by omega)), if_pos (e 7 (by omega))]
  simp only [Nat.add_sub_cancel_left, Nat.sub_self]
  norm_num
  omega

/-- A word at least 8 bytes away from the word written is unchanged. -/
theorem load_store_far (m : Nat → Nat) (a v c : Nat) (h : c + 8 ≤ a ∨ a + 8 ≤ c) :
    load_word (store_word m a v) c = load_word m c := by
  simp only [load_word, store_word]
  have e : ∀ i, i < 8 → ¬ (a ≤ c + i ∧ c + i < a + 8) := fun i hi => by omega
  rw [if_neg (by omega : ¬ (a ≤ c ∧ c < a + 8)), if_neg (e 1 (by omega)), if_neg (e 2 (by omega)),
    if_neg (e 3 (by omega)), if_neg (e 4 (by omega)), if_neg (e 5 (by omega)),
    if_neg (e 6 (by omega)), if_neg (e 7 (by omega))]

/-- Where the header records agree with the bytes, `size` is the word at offset 0. -/
theorem agree_size (A : List Nat) (z : Nat → free_zone) (m : Nat → Nat) (a : Nat)
    (h : Agree A z m) (ha : a ∈ A) : size_at m a = (z a).size := by
  rw [h a ha]; rfl

/-- Where the header records agree with the bytes, `next` is the word at offset 8. -/
theorem agree_next (A : List Nat) (z : Nat → free_zone) (m : Nat → Nat) (a : Nat)
    (h : Agree A z m) (ha : a ∈ A) : next_at m a = (z a).next := by
  rw [h a ha]; rfl

/-- The assignment `a->size = v` on header records and on bytes: the headers
at the addresses of `A`, 16 bytes apart, agree after it as they did before. -/
theorem agree_write_size (A : List Nat) (z : Nat → free_zone) (m : Nat → Nat) (a v : Nat)
    (h : Agree A z m) (hap : Apart A) (ha : a ∈ A) (hv : v < ULONG_MOD) :
    Agree A (write_size z a v) (store_size m a v) := by
  intro c hc
  by_cases e : c = a
  · rw [e]
    simp only [write_size, if_true, header_at, size_at, next_at, store_size]
    rw [load_store_same _ _ _ hv, load_store_far _ _ _ _ (Or.inr (Nat.le_refl _)),
      h a ha]
    rfl
  · have := hap c hc a ha e
    simp only [write_size, if_neg e, header_at, size_at, next_at, store_size]
    rw [load_store_far _ _ _ _ (by omega), load_store_far _ _ _ _ (by omega), h c hc]
    rfl

/-- The assignment `a->next = v` on header records and on bytes: the headers
at the addresses of `A`, 16 bytes apart, agree after it as they did before. -/
theorem agree_write_next (A : List Nat) (z : Nat → free_zone) (m : Nat → Nat) (a v : Nat)
    (h : Agree A z m) (hap : Apart A) (ha : a ∈ A) (hv : v < ULONG_MOD) :
    Agree A (write_next z a v) (store_next m a v) := by
  intro c hc
  by_cases e : c = a
  · rw [e]
    simp only [write_next, if_true, header_at, size_at, next_at, store_next]
    rw [load_store_same _ _ _ hv, load_store_far _ _ _ _ (Or.inl (Nat.le_refl _)),
      h a ha]
    rfl
  · have := hap c hc a ha e
    simp only [write_next, if_neg e, header_at, size_at, next_at, store_next]
    rw [load_store_far _ _ _ _ (by omega), load_store_far _ _ _ _ (by omega), h c hc]
    rfl

/-- The assignment `a->size = v` changes no `next`. -/
theorem closed_write_size (C A : List Nat) (z : Nat → free_zone) (a v : Nat)
    (h : Closed C A z) : Closed C A (write_size z a v) := by
  intro c hc
  have := h c hc
  simp only [write_size]
  split
  · exact this
  · exact this

/-- After `a->next = v` with `v` in `A`, the `next` of `a` is in `A` as well. -/
theorem closed_write_next (C A : List Nat) (z : Nat → free_zone) (a v : Nat)
    (h : Closed C A z) (hv : v ∈ A) : Closed (a :: C) A (write_next z a v) := by
  intro c hc
  simp only [write_next]
  split
  · exact hv
  · next e =>
    rcases List.mem_cons.1 hc with e1 | hc
    · exact absurd e1 e
    · exact h c hc

/-- A closed set of headers may be narrowed. -/
theorem closed_subset (C D A : List Nat) (z : Nat → free_zone) (h : Closed D A z)
    (hs : ∀ a ∈ C, a ∈ D) : Closed C A z :=
  fun a ha => h a (hs a ha)

/-- The set that holds the `next` fields may be widened. -/
theorem closed_mono (C A B : List Nat) (z : Nat → free_zone) (h : Closed C A z)
    (hs : ∀ a ∈ A, a ∈ B) : Closed C B z :=
  fun a ha => hs _ (h a ha)

/-- One merge of `mem_fusion` keeps the header records and the bytes in agreement. -/
theorem fusion_merge_sim (A : List Nat) (s : Heap) (b : ByteHeap) (senti : Nat)
    (h : Sim A s b) (hap : Apart A) (hsm : ∀ a ∈ A, a < ULONG_MOD) (hs : senti ∈ A) :
    Sim A (fusion_merge s senti) (fusion_merge_bytes b senti) := by
  obtain ⟨h1, h2, h3, hag, hcl, hm⟩ := h
  have n1 := hcl senti hs
  have e1 := agree_size A _ _ senti hag hs
  have e2 := agree_next A _ _ senti hag hs
  have e3 := agree_size A _ _ _ hag n1
  have hv : ((s.zones senti).size + (s.zones (s.zones senti).next).size) % ULONG_MOD
      < ULONG_MOD := Nat.mod_lt _ (by unfold ULONG_MOD; norm_num)
  have hag1 := agree_write_size A _ _ senti _ hag hap hs hv
  have hcl1 := closed_write_size A A _ senti
    (((s.zones senti).size + (s.zones (s.zones senti).next).size) % ULONG_MOD) hcl
  have n2 := hcl1 senti hs
  have e4 := agree_next A _ _ senti hag1 hs
  have n3 := hcl1 _ n2
  have e5 := agree_next A _ _ _ hag1 n2
  have hag2 := agree_write_next A _ _ senti _ hag1 hap hs (hsm _ n3)
  have hcl2 := closed_write_next A A _ senti _ hcl1 n3
  simp only [fusion_merge, fusion_merge_bytes, e1, e2, e3, e4, e5, ← h2]
  refine ⟨h1, rfl, h3, hag2, closed_subset _ _ _ _ hcl2 (fun a ha => List.mem_cons_of_mem _ ha),
    ?_⟩
  simp only
  split
  · exact hs
  · exact hm

/-- The loop of `mem_fusion` on bytes ends as the loop on header records does. -/
theorem fusion_loop_sim (A : List Nat) (mem : Nat) (hap : Apart A)
    (hsm : ∀ a ∈ A, a < ULONG_MOD) :
    ∀ (fuel : Nat) (s : Heap) (b : ByteHeap) (senti : Nat) (s1 : Heap) (q : Nat),
      Sim A s b → senti ∈ A → fusion_loop mem fuel s senti = some (s1, q) →
      ∃ b1, fusion_loop_bytes mem fuel b senti = some (b1, q) ∧ Sim A s1 b1 ∧ q ∈ A := by
  intro fuel
  induction fuel with
  | zero => intro s b senti s1 q _ _ h; simp [fusion_loop] at h
  | succ n ih =>
    intro s b senti s1 q h hs hr
    have e1 := agree_size A _ _ senti h.2.2.2.1 hs
    have e2 := agree_next A _ _ senti h.2.2.2.1 hs
    simp only [fusion_loop] at hr
    simp only [fusion_loop_bytes, e1, e2]
    split at hr
    · simp at hr
    · next h0 =>
      rw [if_neg h0]
      split at hr
      · next hne =>
        rw [if_pos hne]
        split at hr
        · next hadj =>
          rw [if_pos hadj]
          exact ih _ _ senti s1 q (fusion_merge_sim A s b senti h hap hsm hs) hs hr
        · next hadj =>
          rw [if_neg hadj]
          exact ih _ _ _ s1 q h (h.2.2.2.2.1 senti hs) hr
      · next hne =>
        rw [if_neg hne]
        simp only [Option.some.injEq, Prod.mk.injEq] at hr
        obtain ⟨r1, r2⟩ := hr
        subst r1 r2
        exact ⟨b, rfl, h, hs⟩

/-- The function `mem_fusion` on bytes returns what it returns on header records. -/
theorem mem_fusion_sim (A : List Nat) (fuel : Nat) (s : Heap) (b : ByteHeap) (mem r : Nat)
    (s1 : Heap) (hap : Apart A) (hsm : ∀ a ∈ A, a < ULONG_MOD) (h : Sim A s b)
    (hm : mem ∈ A) (hr : mem_fusion fuel s mem = some (r, s1)) :
    ∃ b1, mem_fusion_bytes fuel b mem = some (r, b1) ∧ Sim A s1 b1 := by
  unfold mem_fusion at hr
  unfold mem_fusion_bytes
  cases hl : fusion_loop mem fuel s mem with
  | none => rw [hl] at hr; simp at hr
  | some p =>
    obtain ⟨s2, q⟩ := p
    rw [hl] at hr
    obtain ⟨b2, hb, hs2, hq⟩ := fusion_loop_sim A mem hap hsm fuel s b mem s2 q h hm hl
    rw [hb]
    have e1 := agree_size A _ _ q hs2.2.2.2.1 hq
    have e2 := agree_next A _ _ q hs2.2.2.2.1 hq
    simp only at hr ⊢
    rw [e1, e2]
    split at hr
    · next hadj =>
      rw [if_pos hadj]
      simp only [Option.some.injEq, Prod.mk.injEq] at hr
      obtain ⟨r1, r2⟩ := hr
      subst r1 r2
      exact ⟨_, rfl, fusion_merge_sim A s2 b2 q hs2 hap hsm hq⟩
    · next hadj =>
      rw [if_neg hadj]
      simp only [Option.some.injEq, Prod.mk.injEq] at hr
      obtain ⟨r1, r2⟩ := hr
      subst r1 r2
      exact ⟨_, rfl, hs2⟩

/-- The loop `while (prev->next != target)` on bytes and on header records. -/
theorem find_prev_sim (A : List Nat) (z : Nat → free_zone) (m : Nat → Nat) (target : Nat)
    (hag : Agree A z m) (hcl : Closed A A z) :
    ∀ (fuel p : Nat), p ∈ A → find_prev_bytes m target fuel p = find_prev z target fuel p := by
  intro fuel
  induction fuel with
  | zero => intro p _; rfl
  | succ n ih =>
    intro p hp
    simp only [find_prev, find_prev_bytes, agree_next A z m p hag hp]
    split
    · rfl
    · split
      · exact ih _ (hcl p hp)
      · rfl

/-- The loop `while (prev->next != target)` stays among the headers of `A`. -/
theorem find_prev_mem (A : List Nat) (z : Nat → free_zone) (target : Nat)
    (hcl : Closed A A z) :
    ∀ (fuel p q : Nat), p ∈ A → find_prev z target fuel p = some q → q ∈ A := by
  intro fuel
  induction fuel with
  | zero => intro p q _ h; simp [find_prev] at h
  | succ n ih =>
    intro p q hp h
    simp only [find_prev] at h
    split at h
    · simp at h
    · split at h
      · exact ih _ q (hcl p hp) h
      · simp only [Option.some.injEq] at h
        rw [← h]; exact hp

/-- The `do ... while` loop of `mem_free` on bytes and on header records. -/
theorem free_scan_sim (A : List Nat) (s : Heap) (b : ByteHeap) (zone : Nat)
    (hag : Agree A s.zones b.bytes) (hcl : Closed A A s.zones)
    (hm : s.mem_free_zone = b.mem_free_zone) :
    ∀ (fuel p : Nat), p ∈ A → free_scan_bytes b zone fuel p = free_scan s zone fuel p := by
  intro fuel
  induction fuel with
  | zero => intro p _; rfl
  | succ n ih =>
    intro p hp
    simp only [free_scan, free_scan_bytes, agree_next A _ _ p hag hp, ← hm]
    split
    · rfl
    · split
      · exact ih _ (hcl p hp)
      · rfl

/-- The `do ... while` loop of `mem_free` stays among the headers of `A`. -/
theorem free_scan_mem (A : List Nat) (s : Heap) (zone : Nat) (hcl : Closed A A s.zones) :
    ∀ (fuel p q : Nat), p ∈ A → free_scan s zone fuel p = some q → q ∈ A := by
  intro fuel
  induction fuel with
  | zero => intro p q _ h; simp [free_scan] at h
  | succ n ih =>
    intro p q hp h
    simp only [free_scan] at h
    split at h
    · simp at h
    · split at h
      · exact ih _ q (hcl p hp) h
      · simp only [Option.some.injEq] at h
        rw [← h]; exact hcl p hp

/-- The loop of `mem_show` on bytes and on header records. -/
theorem show_loop_sim (A : List Nat) (z : Nat → free_zone) (m : Nat → Nat) (senti : Nat)
    (hag : Agree A z m) (hcl : Closed A A z) :
    ∀ (fuel cur : Nat), cur ∈ A →
      show_loop_bytes m senti fuel cur = show_loop z senti fuel cur := by
  intro fuel
  induction fuel with
  | zero => intro p _; rfl
  | succ n ih =>
    intro p hp
    simp only [show_loop, show_loop_bytes, agree_next A z m p hag hp,
      agree_size A z m p hag hp]
    split
    · rfl
    · split
      · rw [ih _ (hcl p hp)]
      · rfl

/-- The three assignments that link the freed zone, on header records and on bytes. -/
theorem link_after_sim (A : List Nat) (z : Nat → free_zone) (m : Nat → Nat)
    (p zone rs nxt : Nat) (hag : Agree A z m) (hap : Apart A) (hp : p ∈ A) (hz : zone ∈ A)
    (hzs : zone < ULONG_MOD) (hrs : rs < ULONG_MOD) (hn : nxt < ULONG_MOD) :
    Agree A (link_after z p zone rs nxt) (link_after_bytes m p zone rs nxt) := by
  have hag1 := agree_write_next A z m p zone hag hap hp hzs
  have e1 := agree_next A _ _ p hag1 hp
  have f1 : (write_next z p zone p).next = zone := by simp [write_next]
  have hag2 := agree_write_size A _ _ zone rs hag1 hap hz hrs
  have e2 := agree_next A _ _ p hag2 hp
  have f2 : (write_size (write_next z p zone) zone rs p).next = zone := by
    rw [write_size_next]; exact f1
  have hag3 := agree_write_next A _ _ zone nxt hag2 hap hz hn
  rw [link_after_eq]
  simp only [link_after_bytes, e1, f1, e2, f2]
  exact hag3

/-- After the freed zone is linked, the headers of the list and of the zone
point to each other only. -/
theorem link_after_closed (C : List Nat) (z : Nat → free_zone) (p zone rs nxt : Nat)
    (hcl : Closed C C z) (hn : nxt ∈ zone :: C) :
    Closed (zone :: C) (zone :: C) (link_after z p zone rs nxt) := by
  rw [link_after_eq]
  refine closed_write_next _ _ _ zone nxt (closed_write_size _ _ _ zone rs ?_) hn
  intro a ha
  simp only [write_next]
  split
  · exact List.mem_cons_self _ _
  · exact List.mem_cons_of_mem _ (hcl a ha)

/-- The call of `mem_fusion` that ends `mem_free`, on header records and on bytes. -/
theorem fusion_tail_sim (A : List Nat) (fuel : Nat) (s : Heap) (b : ByteHeap) (mem : Nat)
    (s1 : Heap) (hap : Apart A) (hsm : ∀ a ∈ A, a < ULONG_MOD) (h : Sim A s b) (hm : mem ∈ A)
    (hr : (match mem_fusion fuel s mem with
      | none => none
      | some (_, s2) => some (0, s2)) = some (0, s1)) :
    ∃ b1, (match mem_fusion_bytes fuel b mem with
      | none => none
      | some (_, b2) => some (0, b2)) = some (0, b1) ∧ Sim A s1 b1 := by
  cases hf : mem_fusion fuel s mem with
  | none => rw [hf] at hr; simp at hr
  | some p =>
    obtain ⟨r, s2⟩ := p
    rw [hf] at hr
    simp only [Option.some.injEq, Prod.mk.injEq, true_and] at hr
    obtain ⟨b1, hb, hsim⟩ := mem_fusion_sim A fuel s b mem r s2 hap hsm h hm hf
    rw [hb]
    exact ⟨b1, rfl, hr ▸ hsim⟩

/-- The function `mem_free` on bytes returns 0 where it does on header records, and
leaves the same headers, as long as the headers of the free list and of the
freed zone are 16 bytes apart and hold words below `2 ^ 64`. -/
theorem mem_free_sim (C : List Nat) (fuel : Nat) (s : Heap) (b : ByteHeap) (zone size : Nat)
    (s1 : Heap)
    (hg1 : b.mem_heap = s.mem_heap) (hg2 : b.mem_free_zone = s.mem_free_zone)
    (hg3 : b.mem_size = s.mem_size)
    (hag : Agree (zone :: C) s.zones b.bytes) (hcl : Closed C C s.zones)
    (hap : Apart (zone :: C)) (hsm : ∀ a ∈ zone :: C, a < ULONG_MOD)
    (hrs : r_size 16 size < ULONG_MOD)
    (hm : s.mem_free_zone = 0 ∨ s.mem_free_zone ∈ C)
    (hr : mem_free 16 fuel s zone size = some (0, s1)) :
    ∃ b1, mem_free_bytes fuel b zone size = some (0, b1) ∧ Sim (zone :: C) s1 b1 := by
  obtain ⟨bh, bf, bs, bm⟩ := b
  simp only at hg1 hg2 hg3 hag
  subst hg1 hg2 hg3
  have hz : zone ∈ zone :: C := List.mem_cons_self _ _
  have hzs := hsm zone hz
  have hCA : ∀ a ∈ C, a ∈ zone :: C := fun a ha => List.mem_cons_of_mem _ ha
  have hagC : Agree C s.zones bm := fun a ha => hag a (hCA a ha)
  unfold mem_free at hr
  unfold mem_free_bytes
  simp only at hr ⊢
  split at hr
  · simp at hr
  · next hc1 =>
    rw [if_neg hc1]
    split at hr
    · simp at hr
    · next hc2 =>
      rw [if_neg hc2]
      split at hr
      · next h0 =>
        rw [if_pos h0]
        simp only [Option.some.injEq, Prod.mk.injEq, true_and] at hr
        subst hr
        refine ⟨_, rfl, rfl, rfl, rfl, ?_, ?_, hz⟩
        · exact agree_write_next _ _ _ zone zone
            (agree_write_size _ _ _ zone _ hag hap hz hrs) hap hz hzs
        · exact closed_write_next _ _ _ zone zone
            (closed_write_size _ _ _ zone _ (closed_mono _ _ _ _ hcl hCA)) hz
      · next h0 =>
        rw [if_neg h0]
        have hmC : s.mem_free_zone ∈ C := hm.resolve_left h0
        have hmA := hCA _ hmC
        have hms := hsm _ hmA
        rw [agree_next _ _ _ _ hag hmA]
        split at hr
        · next h1 =>
          rw [if_pos h1]
          refine fusion_tail_sim _ fuel _ _ _ s1 hap hsm ?_ ?_ hr
          refine ⟨rfl, rfl, rfl, ?_, ?_, ?_⟩
          · exact agree_write_next _ _ _ zone _
              (agree_write_size _ _ _ zone _
                (agree_write_next _ _ _ _ zone hag hap hmA hzs) hap hz hrs) hap hz hms
          · refine closed_write_next _ _ _ zone _ (closed_write_size _ _ _ zone _ ?_) hmA
            intro a ha
            simp only [write_next]
            split
            · exact hz
            · exact hCA _ (hcl a ha)
          · simp only
            split
            · exact hz
            · exact hmA
          · split
            · exact hz
            · exact hmA
        · next h1 =>
          rw [if_neg h1]
          split at hr
          · next hlt =>
            rw [if_pos hlt, free_scan_sim C s _ zone hagC hcl rfl fuel _ hmC]
            cases hfs : free_scan s zone fuel s.mem_free_zone with
            | none => rw [hfs] at hr; simp at hr
            | some senti =>
              rw [hfs] at hr
              have hsC := free_scan_mem C s zone hcl fuel _ senti hmC hfs
              simp only at hr ⊢
              split at hr
              · next hsz =>
                rw [if_pos hsz, find_prev_sim C _ _ _ hagC hcl fuel _ hsC]
                cases hfp : find_prev s.zones s.mem_free_zone fuel senti with
                | none => rw [hfp] at hr; simp at hr
                | some last =>
                  rw [hfp] at hr
                  have hlC := find_prev_mem C _ _ hcl fuel _ last hsC hfp
                  simp only at hr ⊢
                  refine fusion_tail_sim _ fuel _ _ _ s1 hap hsm ?_ hmA hr
                  refine ⟨rfl, rfl, rfl, ?_, ?_, hmA⟩
                  · exact link_after_sim _ _ _ _ _ _ _ hag hap (hCA _ hlC) hz hzs hrs hms
                  · exact link_after_closed C _ _ _ _ _ hcl hmA
              · next hsz =>
                rw [if_neg hsz, find_prev_sim C _ _ _ hagC hcl fuel _ hsC]
                cases hfp : find_prev s.zones senti fuel senti with
                | none => rw [hfp] at hr; simp at hr
                | some prev =>
                  rw [hfp] at hr
                  have hlC := find_prev_mem C _ _ hcl fuel _ prev hsC hfp
                  simp only at hr ⊢
                  refine fusion_tail_sim _ fuel _ _ _ s1 hap hsm ?_ hmA hr
                  refine ⟨rfl, rfl, rfl, ?_, ?_, hmA⟩
                  · exact link_after_sim _ _ _ _ _ _ _ hag hap (hCA _ hlC) hz hzs hrs
                      (hsm _ (hCA _ hsC))
                  · exact link_after_closed C _ _ _ _ _ hcl (hCA _ hsC)
          · next hlt =>
            rw [if_neg hlt, find_prev_sim C _ _ _ hagC hcl fuel _ hmC]
            cases hfp : find_prev s.zones s.mem_free_zone fuel s.mem_free_zone with
            | none => rw [hfp] at hr; simp at hr
            | some prev =>
              rw [hfp] at hr
              have hlC := find_prev_mem C _ _ hcl fuel _ prev hmC hfp
              simp only at hr ⊢
              refine fusion_tail_sim _ fuel _ _ _ s1 hap hsm ?_ hz hr
              refine ⟨rfl, rfl, rfl, ?_, ?_, hz⟩
              · exact link_after_sim _ _ _ _ _ _ _ hag hap (hCA _ hlC) hz hzs hrs hms
              · exact link_after_closed C _ _ _ _ _ hcl hmA

/-- In a chain that ends at an address of `S`, made of blocks of `S`, every
`next` is in `S`. -/
theorem seg_closed (z : Nat → free_zone) (S : List Nat) :
    ∀ (l : List (Nat × Nat)) (a c : Nat), Seg z a l c → c ∈ S → (∀ x ∈ l, x.1 ∈ S) →
      ∀ x ∈ l, (z x.1).next ∈ S := by
  intro l
  induction l with
  | nil => intro a c _ _ _ x hx; simp at hx
  | cons y r ih =>
    intro a c hs hc hS x hx
    obtain ⟨h1, _, _, h4⟩ := hs
    rcases List.mem_cons.1 hx with e | hx
    · rw [e, ← h1]
      cases r with
      | nil =>
        have h4 : (z a).next = c := h4
        rw [h4]; exact hc
      | cons y2 r2 =>
        rw [(seg_head z y2 r2 _ c h4).1]
        exact hS y2 (by simp)
    · exact ih _ c h4 hc (fun x hx => hS x (List.mem_cons_of_mem _ hx)) x hx

/-- A chain of header records is a chain of the headers read from the bytes. -/
theorem seg_agree (A : List Nat) (z : Nat → free_zone) (m : Nat → Nat) (hag : Agree A z m)
    (hcl : Closed A A z) :
    ∀ (l : List (Nat × Nat)) (a c : Nat), a ∈ A → Seg z a l c → Seg (header_at m) a l c := by
  intro l
  induction l with
  | nil => intro a c _ h; exact h
  | cons y r ih =>
    intro a c ha hs
    obtain ⟨h1, h2, h3, h4⟩ := hs
    refine ⟨h1, h2, ?_, ?_⟩
    · rw [← hag a ha]; exact h3
    · rw [← hag a ha]; exact ih _ c (hcl a ha) h4

/-- On a free list made of blocks of at least 16 bytes, the header-record
`mem_free` and the byte-addressed `mem_free_bytes` do the same: under the
conditions of C5 and C6 as amended, with `H = sizeof(free_zone_t) = 16`, both
return 0, both leave the same `mem_free_zone`, and `mem_show` prints the same
free list after both. -/
theorem mem_free_bytes_agrees (fuel : Nat) (b : ByteHeap) (l : List (Nat × Nat))
    (zone size : Nat)
    (hlist : FreeListIs (headers b) l)
    (hsorted : l.Pairwise (fun x y => x.1 < y.1 ∧ x.1 + x.2 ≤ y.1))
    (hblocks : ∀ x ∈ l, 16 ≤ x.2 ∧ x.1 + x.2 ≤ b.mem_heap + b.mem_size)
    (hword : b.mem_heap + b.mem_size < ULONG_MOD)
    (hchecks : ¬ (zone = 0 ∨ size = 0 ∨ size > b.mem_size ∨ zone < b.mem_heap
        ∨ zone > b.mem_heap + b.mem_size)
      ∧ ¬ (zone + max size 16 > b.mem_heap + b.mem_size))
    (hdisj : ∀ x ∈ l, zone + max size 16 ≤ x.1 ∨ x.1 + x.2 ≤ zone)
    (hfuel : l.length + 1 ≤ fuel) :
    ∃ b1 s1 l1, mem_free_bytes fuel b zone size = some (0, b1) ∧
      mem_free 16 fuel (headers b) zone size = some (0, s1) ∧
      b1.mem_free_zone = s1.mem_free_zone ∧
      mem_show_bytes fuel b1 = some (0, l1) ∧ mem_show fuel s1 = some (0, l1) ∧
      FreeListIs (headers b1) l1 := by
  have hpos : ∀ x ∈ l, 0 < x.2 ∧ x.1 + x.2 ≤ (headers b).mem_heap + (headers b).mem_size :=
    fun x hx => ⟨by have := (hblocks x hx).1; omega, (hblocks x hx).2⟩
  obtain ⟨s1, x, r, r1, r2, r3, r4, _, _⟩ :=
    mem_free_result 16 fuel (headers b) l zone size hlist hsorted hpos hword hchecks hdisj hfuel
  have hmax : 16 ≤ max size 16 := Nat.le_max_right _ _
  have hrs : r_size 16 size < ULONG_MOD := by
    rw [r_size_eq_max]
    have := hchecks.2
    omega
  have hC : ∀ a ∈ l.map Prod.fst, ∃ x ∈ l, x.1 = a := fun a ha => by
    obtain ⟨x, hx, e⟩ := List.mem_map.1 ha
    exact ⟨x, hx, e⟩
  have hA : ∀ a ∈ zone :: l.map Prod.fst, a = zone ∨ ∃ x ∈ l, x.1 = a := fun a ha => by
    rcases List.mem_cons.1 ha with e | ha
    · exact Or.inl e
    · exact Or.inr (hC a ha)
  have hsym : ∀ x ∈ l, ∀ y ∈ l, x ≠ y → (x.1 < y.1 ∧ x.1 + x.2 ≤ y.1) ∨
      (y.1 < x.1 ∧ y.1 + y.2 ≤ x.1) := by
    have hp : l.Pairwise (fun x y => (x.1 < y.1 ∧ x.1 + x.2 ≤ y.1) ∨
        (y.1 < x.1 ∧ y.1 + y.2 ≤ x.1)) := hsorted.imp (fun h => Or.inl h)
    exact fun x hx y hy hne => hp.forall (fun _ _ h => h.symm) hx hy hne
  have hap : Apart (zone :: l.map Prod.fst) := by
    intro a ha c hc hne
    rcases hA a ha with e1 | ⟨x, hx, e1⟩ <;> rcases hA c hc with e2 | ⟨y, hy, e2⟩
    · exact absurd (e1.trans e2.symm) hne
    · have := hdisj y hy
      have := (hblocks y hy).1
      omega
    · have := hdisj x hx
      have := (hblocks x hx).1
      omega
    · have hxy : x ≠ y := fun e => hne (by rw [← e1, ← e2, e])
      have := hsym x hx y hy hxy
      have := (hblocks x hx).1
      have := (hblocks y hy).1
      omega
  have hsm : ∀ a ∈ zone :: l.map Prod.fst, a < ULONG_MOD := by
    intro a ha
    rcases hA a ha with e1 | ⟨x, hx, e1⟩
    · have := hchecks.1
      omega
    · have := (hblocks x hx).2
      omega
  have hm : (headers b).mem_free_zone = 0 ∨ (headers b).mem_free_zone ∈ l.map Prod.fst := by
    cases l with
    | nil => exact Or.inl hlist
    | cons y t =>
      right
      rw [(seg_head _ _ _ _ _ hlist.1).1]
      simp
  have hcl : Closed (l.map Prod.fst) (l.map Prod.fst) (headers b).zones := by
    cases l with
    | nil => intro a ha; simp at ha
    | cons y t =>
      intro a ha
      obtain ⟨x, hx, e⟩ := hC a ha
      rw [← e]
      refine seg_closed _ _ _ _ _ hlist.1 ?_ (fun x hx => List.mem_map_of_mem _ hx) x hx
      rw [(seg_head _ _ _ _ _ hlist.1).1]
      simp
  obtain ⟨b1, q1, q2⟩ := mem_free_sim (l.map Prod.fst) fuel (headers b) b zone size s1
    rfl rfl rfl (fun _ _ => rfl) hcl hap hsm hrs hm r1
  obtain ⟨_, g2, _, hag1, hcl1, hm1⟩ := q2
  have hshow : mem_show_bytes fuel b1 = mem_show fuel s1 := by
    unfold mem_show mem_show_bytes
    rw [← g2, show_loop_sim _ _ _ _ hag1 hcl1 fuel _ hm1]
  refine ⟨b1, s1, x :: r, q1, r1, g2.symm, hshow.trans r3, r3, ?_, r2.2⟩
  have := seg_agree _ _ _ hag1 hcl1 _ _ _ hm1 r2.1
  rw [g2] at this
  exact this

/-- Witness of `mem_free_bytes_agrees`: the zone `(4228, 68)` freed between the
blocks `(4196, 32)` and `(4296, 64)` of `three_blocks_bytes`. -/
theorem mem_free_bytes_agrees_witness :
    ∃ b1 s1 l1, mem_free_bytes 4 three_blocks_bytes 4228 68 = some (0, b1) ∧
      mem_free 16 4 (headers three_blocks_bytes) 4228 68 = some (0, s1) ∧
      b1.mem_free_zone = s1.mem_free_zone ∧
      mem_show_bytes 4 b1 = some (0, l1) ∧ mem_show 4 s1 = some (0, l1) ∧
      FreeListIs (headers b1) l1 :=
  mem_free_bytes_agrees 4 three_blocks_bytes [(4096, 16), (4196, 32), (4296, 64)] 4228 68
    ⟨⟨rfl, by decide, rfl, rfl, by decide, rfl, rfl, by decide, rfl, rfl⟩, by decide⟩
    (by simp) (by simp [three_blocks_bytes])
    (by simp [three_blocks_bytes, ULONG_MOD]) (by simp [three_blocks_bytes]) (by simp) (by simp)

/-- The result of that call on bytes: the three blocks `(4196, 32)`, `(4228, 68)`
and `(4296, 64)` are merged into `(4196, 164)`. -/
theorem three_blocks_bytes_result :
    ∃ b1, mem_free_bytes 4 three_blocks_bytes 4228 68 = some (0, b1) ∧
      mem_show_bytes 4 b1 = some (0, [(4096, 16), (4196, 164)]) :=
  ⟨_, rfl, rfl⟩

/-! ## `not_ok`, `r_size` and `mem_init` -/

/-- C20: computed without wrap-around, `not_ok(z, n)` returns 0 exactly when
`z.size == n` or `z.size >= n + sizeof(free_zone_t)`, and returns 1 otherwise,
that is when `z.size < n` or `n < z.size < n + sizeof(free_zone_t)`. -/
theorem not_ok_spec (H : Nat) (z : Nat → free_zone) (zone n : Nat) :
    (not_ok H z zone n = 0 ↔ ((z zone).size = n ∨ (z zone).size ≥ n + H)) ∧
    (not_ok H z zone n = 1 ↔
      ((z zone).size < n ∨ (n < (z zone).size ∧ (z zone).size < n + H))) ∧
    (not_ok H z zone n = 0 ∨ not_ok H z zone n = 1) := by
  unfold not_ok
  refine ⟨?_, ?_, ?_⟩
  · split
    · simp; omega
    · split
      · simp; omega
      · split
        · simp; omega
        · simp; omega
  · split
    · simp; omega
    · split
      · simp; omega
      · split
        · simp; omega
        · simp; omega
  · split
    · simp
    · split
      · simp
      · split <;> simp

/-- C19: for `0 < s <= H`, `mem_alloc(s)` returns the same address and leaves the
same state as `mem_alloc(H)`, and `mem_free(zone, s)` returns the same code and
leaves the same state as `mem_free(zone, H)`, in every state and for every
`zone` (also when `s > mem_size`, where both calls return 1). -/
theorem small_sizes_behave_as_H (H fuel : Nat) (st : Heap) (zone s : Nat)
    (hs : 0 < s) (hsH : s ≤ H) :
    mem_alloc H fuel st s = mem_alloc H fuel st H ∧
    mem_free H fuel st zone s = mem_free H fuel st zone H := by
  have hrs : r_size H s = H := by
    unfold r_size
    split
    · omega
    · rfl
  have hrH : r_size H H = H := by simp [r_size]
  constructor
  · unfold mem_alloc
    rw [hrs, hrH]
    have e1 : (st.mem_free_zone = 0 ∨ s = 0) ↔ (st.mem_free_zone = 0 ∨ H = 0) := by
      constructor <;> (intro h; rcases h with h | h <;> [exact Or.inl h; omega])
    simp only [e1]
  · unfold mem_free
    rw [hrs, hrH]
    by_cases h1 : zone = 0 ∨ zone < st.mem_heap ∨ zone > st.mem_heap + st.mem_size
    · have c1 : zone = 0 ∨ s = 0 ∨ s > st.mem_size ∨ zone < st.mem_heap
          ∨ zone > st.mem_heap + st.mem_size := by omega
      have c2 : zone = 0 ∨ H = 0 ∨ H > st.mem_size ∨ zone < st.mem_heap
          ∨ zone > st.mem_heap + st.mem_size := by omega
      simp only [if_pos c1, if_pos c2]
    · by_cases h2 : H > st.mem_size
      · have c2 : zone = 0 ∨ H = 0 ∨ H > st.mem_size ∨ zone < st.mem_heap
            ∨ zone > st.mem_heap + st.mem_size := by omega
        have c3 : zone + H > st.mem_heap + st.mem_size := by omega
        by_cases h3 : s > st.mem_size
        · have c1 : zone = 0 ∨ s = 0 ∨ s > st.mem_size ∨ zone < st.mem_heap
              ∨ zone > st.mem_heap + st.mem_size := by omega
          simp only [if_pos c1, if_pos c2]
        · have c1 : ¬ (zone = 0 ∨ s = 0 ∨ s > st.mem_size ∨ zone < st.mem_heap
              ∨ zone > st.mem_heap + st.mem_size) := by omega
          simp only [if_neg c1, if_pos c2, if_pos c3]
      · have c1 : ¬ (zone = 0 ∨ s = 0 ∨ s > st.mem_size ∨ zone < st.mem_heap
            ∨ zone > st.mem_heap + st.mem_size) := by omega
        have c2 : ¬ (zone = 0 ∨ H = 0 ∨ H > st.mem_size ∨ zone < st.mem_heap
            ∨ zone > st.mem_heap + st.mem_size) := by omega
        simp only [if_neg c1, if_neg c2]

/-- Witness of `small_sizes_behave_as_H`: sizes 5 and 16 on the state `two_blocks`. -/
theorem small_sizes_behave_as_H_witness :
    mem_alloc 16 2 two_blocks 5 = mem_alloc 16 2 two_blocks 16 ∧
    mem_free 16 2 two_blocks 4200 5 = mem_free 16 2 two_blocks 4200 16 :=
  small_sizes_behave_as_H 16 2 two_blocks 4200 5 (by decide) (by decide)

/-- C11: when `malloc` returns a non-null `p`, `mem_init` returns 0 and leaves
`mem_heap == p`, `mem_free_zone == mem_heap`, `mem_size == HEAP_SIZE` and the free
list made of the single block `(p, HEAP_SIZE)` whose `next` is itself; when
`malloc` returns `NULL`, `mem_init` returns 1 and writes no header (nor
`mem_free_zone`, nor `mem_size`). -/
theorem mem_init_spec (HEAP_SIZE p fuel : Nat) (s : Heap) (hp : p ≠ 0) :
    (∃ s1, mem_init HEAP_SIZE p s = (0, s1) ∧ s1.mem_heap = p ∧
      s1.mem_free_zone = s1.mem_heap ∧ s1.mem_size = HEAP_SIZE ∧
      s1.zones p = ⟨HEAP_SIZE, p⟩ ∧ FreeListIs s1 [(p, HEAP_SIZE)] ∧
      mem_show (fuel + 1) s1 = some (0, [(p, HEAP_SIZE)])) ∧
    (∃ s1, mem_init HEAP_SIZE 0 s = (1, s1) ∧ s1.zones = s.zones ∧
      s1.mem_free_zone = s.mem_free_zone ∧ s1.mem_size = s.mem_size ∧ s1.mem_heap = 0) := by
  constructor
  · refine ⟨Heap.mk p p HEAP_SIZE (write_next (write_size s.zones p HEAP_SIZE) p p),
      by simp only [mem_init, if_neg hp], rfl, rfl, rfl, ?_, ?_, ?_⟩
    · simp [write_next, write_size]
    · simp [FreeListIs, Seg, write_next, write_size, hp]
    · simp [mem_show, show_loop, write_next, write_size, hp]
  · exact ⟨Heap.mk 0 s.mem_free_zone s.mem_size s.zones, by simp [mem_init], rfl, rfl, rfl, rfl⟩

/-- Witness of `mem_init_spec`: `HEAP_SIZE = 4096`, `malloc` returns 4096. -/
theorem mem_init_spec_witness :
    (∃ s1, mem_init 4096 4096 blank = (0, s1) ∧ s1.mem_heap = 4096 ∧
      s1.mem_free_zone = s1.mem_heap ∧ s1.mem_size = 4096 ∧
      s1.zones 4096 = ⟨4096, 4096⟩ ∧ FreeListIs s1 [(4096, 4096)] ∧
      mem_show (0 + 1) s1 = some (0, [(4096, 4096)])) ∧
    (∃ s1, mem_init 4096 0 blank = (1, s1) ∧ s1.zones = blank.zones ∧
      s1.mem_free_zone = blank.mem_free_zone ∧ s1.mem_size = blank.mem_size ∧
      s1.mem_heap = 0) :=
  mem_init_spec 4096 4096 0 blank (by decide)

/-! ## After `mem_destroy`, and more inputs where `mem_alloc` leaves its contract -/

/-- C12, the code at the failing input: with `HEAP_SIZE = 4096` and `H = 16`, after
`mem_init; mem_alloc(100); mem_destroy` (which returns 0) no arena is held, and
yet a second `mem_destroy` returns 0 again, `mem_alloc(100)` returns the non-null
address 4196 and `mem_free(4096, 100)` returns 0: `mem_destroy` leaves `mem_heap`
and `mem_free_zone` as they were. -/
theorem operations_succeed_after_destroy (fuel : Nat) :
    ∃ s0 s1 s2 s3,
      mem_init 4096 4096 blank = (0, s0) ∧
      mem_alloc 16 (fuel + 2) s0 100 = some (4096, s1) ∧
      mem_destroy s1 = (0, s1) ∧
      (mem_destroy (mem_destroy s1).2).1 = 0 ∧
      mem_alloc 16 (fuel + 2) (mem_destroy s1).2 100 = some (4196, s2) ∧
      mem_free 16 (fuel + 2) (mem_destroy s1).2 4096 100 = some (0, s3) := by
  simp [mem_init, mem_alloc, mem_free, mem_destroy, mem_fusion, fusion_loop, fusion_merge,
    alloc_search, blank, r_size, write_size, write_next, ULONG_MOD]

/-- C13, the code at the failing input: with `HEAP_SIZE = 4096` and `H = 16`, the
state reached by `mem_init; mem_alloc(100); mem_alloc(100); mem_free(4096, 100);
mem_alloc(50)` has a non-null `mem_free_zone`, and `mem_show` never comes back to
it: it has no result, whatever the bound on the number of iterations. -/
theorem mem_show_diverges_on_reachable_state :
    ∃ s1 s2 s3 s4,
      mem_alloc 16 2 (mem_init 4096 4096 blank).2 100 = some (4096, s1) ∧
      mem_alloc 16 2 s1 100 = some (4196, s2) ∧
      mem_free 16 2 s2 4096 100 = some (0, s3) ∧
      mem_alloc 16 2 s3 50 = some (4096, s4) ∧
      s4.mem_free_zone ≠ 0 ∧ ∀ fuel, mem_show fuel s4 = none := by
  refine ⟨_, _, _, _, rfl, rfl, rfl, rfl, by decide, ?_⟩
  exact mem_show_stuck _ (by rfl) (by rfl) (by rfl) (by rfl)

/-- C14, the code at the failing input: in `three_blocks`, whose free list is
`[(4096, 16), (4196, 32), (4296, 64)]` with head 4096, `mem_alloc(32)` takes the
exact match `(4196, 32)`, which is not the head, and moves `mem_free_zone` to
4296: the free list traversed from it is `[(4296, 64), (4096, 16)]`. -/
theorem exact_match_moves_head (fuel : Nat) :
    mem_show (fuel + 3) three_blocks = some (0, [(4096, 16), (4196, 32), (4296, 64)]) ∧
    three_blocks.mem_free_zone = 4096 ∧
    ∃ s1, mem_alloc 16 (fuel + 3) three_blocks 32 = some (4196, s1) ∧
      s1.mem_free_zone = 4296 ∧
      mem_show (fuel + 3) s1 = some (0, [(4296, 64), (4096, 16)]) := by
  refine ⟨?_, rfl, ?_⟩
  · simp [mem_show, show_loop, three_blocks]
  · simp [mem_alloc, alloc_search, find_prev, not_ok, three_blocks, r_size, write_next,
      mem_show, show_loop]

/-- C15, the code at the failing input: in `two_blocks`, whose free list is
`[(4096, 100), (4296, 3896)]`, `mem_alloc(50)` splits the head `(4096, 100)`,
writes the header `(4146, 50)` and links it after `(4296, 3896)`, but leaves
`mem_free_zone` at 4096 instead of `4096 + 50`; the traversal from
`mem_free_zone` never ends. -/
theorem head_split_keeps_mem_free_zone (fuel : Nat) :
    ∃ s1, mem_alloc 16 (fuel + 1) two_blocks 50 = some (4096, s1) ∧
      s1.mem_free_zone = 4096 ∧ s1.mem_free_zone ≠ 4096 + 50 ∧
      s1.zones 4146 = ⟨50, 4296⟩ ∧ s1.zones 4296 = ⟨3896, 4146⟩ ∧
      ∀ n, mem_show n s1 = none := by
  obtain ⟨s1, h1, a1, b1, c1, d1⟩ : ∃ s1, mem_alloc 16 (fuel + 1) two_blocks 50
      = some (4096, s1) ∧ s1.mem_free_zone = 4096 ∧ s1.zones 4096 = ⟨100, 4296⟩ ∧
      s1.zones 4146 = ⟨50, 4296⟩ ∧ s1.zones 4296 = ⟨3896, 4146⟩ := by
    simp [mem_alloc, alloc_search, find_prev, two_blocks, write_size, write_next, r_size]
  refine ⟨s1, h1, a1, by rw [a1]; decide, c1, d1, ?_⟩
  exact mem_show_stuck s1 a1 (by rw [b1]) (by rw [d1]) (by rw [c1])

/-! ## Allocation only -/

/-- On a free list that is empty or a single self-referential block, `mem_alloc`
fails and changes nothing, or returns the address of the block and leaves the
list empty or a single self-referential block `max(size, H)` bytes further. -/
theorem mem_alloc_single (H fuel : Nat) (s : Heap) (size : Nat) (hf : 1 ≤ fuel)
    (hS : s.mem_free_zone = 0 ∨ (s.zones s.mem_free_zone).next = s.mem_free_zone) :
    ∃ p s1, mem_alloc H fuel s size = some (p, s1) ∧
      (s1.mem_free_zone = 0 ∨ (s1.zones s1.mem_free_zone).next = s1.mem_free_zone) ∧
      ((p = 0 ∧ s1 = s) ∨
        (p = s.mem_free_zone ∧ p ≠ 0 ∧
          (s1.mem_free_zone = 0 ∨ s1.mem_free_zone = p + max size H))) := by
  obtain ⟨n, rfl⟩ : ∃ n, fuel = n + 1 := ⟨fuel - 1, by omega⟩
  unfold mem_alloc
  by_cases h0 : s.mem_free_zone = 0 ∨ size = 0
  · rw [if_pos h0]
    exact ⟨0, s, rfl, hS, Or.inl ⟨rfl, rfl⟩⟩
  · rw [if_neg h0]
    have hm : s.mem_free_zone ≠ 0 := fun h => h0 (Or.inl h)
    have hself : (s.zones s.mem_free_zone).next = s.mem_free_zone := by
      rcases hS with h | h
      · exact absurd h hm
      · exact h
    rw [← r_size_eq_max]
    simp only [hself, ite_self, alloc_search, ne_eq, not_true_eq_false, if_false]
    by_cases h1 : (s.zones s.mem_free_zone).size = r_size H size
    · rw [if_pos h1, if_pos trivial]
      exact ⟨_, _, rfl, Or.inl rfl, Or.inr ⟨rfl, hm, Or.inl rfl⟩⟩
    · rw [if_neg h1]
      by_cases h2 : (s.zones s.mem_free_zone).size > r_size H size
      · rw [if_pos h2, if_pos trivial]
        refine ⟨_, _, rfl, Or.inr ?_, Or.inr ⟨rfl, hm, Or.inr rfl⟩⟩
        simp [write_next]
      · rw [if_neg h2]
        exact ⟨0, s, rfl, hS, Or.inl ⟨rfl, rfl⟩⟩

theorem alloc_run_single (H fuel : Nat) (hf : 1 ≤ fuel) :
    ∀ (sizes : List Nat) (s : Heap) (a : Nat),
      (s.mem_free_zone = 0 ∨ (s.zones s.mem_free_zone).next = s.mem_free_zone) →
      (s.mem_free_zone ≠ 0 → s.mem_free_zone = a) →
      ∃ ps s1, alloc_run H fuel s sizes = some (ps, s1) ∧ ps.length = sizes.length ∧
        (s1.mem_free_zone = 0 ∨ (s1.zones s1.mem_free_zone).next = s1.mem_free_zone) ∧
        ∀ i, ps.getD i 0 ≠ 0 →
          ps.getD i 0 = a + live_bytes H ((sizes.zip ps).take i) := by
  intro sizes
  induction sizes with
  | nil =>
    intro s a hS _
    exact ⟨[], s, rfl, rfl, hS, by simp⟩
  | cons size rest ih =>
    intro s a hS ha
    obtain ⟨p, s1, h1, hS1, hcase⟩ := mem_alloc_single H fuel s size hf hS
    rcases hcase with ⟨hp, hs1⟩ | ⟨hp, hp0, hnext⟩
    · subst hs1
      obtain ⟨ps, s2, r1, r2, r3, r4⟩ := ih s1 a hS ha
      refine ⟨p :: ps, s2, ?_, by simp [r2], r3, ?_⟩
      · simp only [alloc_run, h1, r1, Option.map_some']
      · intro i hi
        cases i with
        | zero => simp [hp] at hi
        | succ i =>
          simp only [List.getD_cons_succ] at hi ⊢
          rw [r4 i hi]
          simp [live_bytes, hp]
          rfl
    · have hpa : p = a := by rw [hp]; exact ha (by rw [← hp]; exact hp0)
      obtain ⟨ps, s2, r1, r2, r3, r4⟩ := ih s1 (a + max size H) hS1
        (by
          intro hne
          rcases hnext with h | h
          · exact absurd h hne
          · rw [h, hpa])
      refine ⟨p :: ps, s2, ?_, by simp [r2], r3, ?_⟩
      · simp only [alloc_run, h1, r1, Option.map_some']
      · intro i hi
        cases i with
        | zero => simp [hpa, live_bytes]
        | succ i =>
          simp only [List.getD_cons_succ] at hi ⊢
          rw [r4 i hi]
          simp [live_bytes, hp0, Nat.add_assoc]
          rfl

/-- C18: from the state left by a successful `mem_init`, a sequence of `mem_alloc`
calls alone, for any sizes, always leaves the free list empty or made of a single
self-referential block, and each call that succeeds returns `base` plus the sum
of `max(s_j, H)` over the earlier calls that succeeded. -/
theorem alloc_only_is_contiguous (H HEAP_SIZE base fuel : Nat) (s : Heap)
    (sizes : List Nat) (hb : base ≠ 0) (hf : 1 ≤ fuel) :
    ∃ ps s1, alloc_run H fuel (mem_init HEAP_SIZE base s).2 sizes = some (ps, s1) ∧
      ps.length = sizes.length ∧
      (FreeListIs s1 [] ∨ ∃ a sz, FreeListIs s1 [(a, sz)]) ∧
      ∀ i, ps.getD i 0 ≠ 0 →
        ps.getD i 0 = base + live_bytes H ((sizes.zip ps).take i) := by
  have h0 : (mem_init HEAP_SIZE base s).2.mem_free_zone = base := by
    simp [mem_init, hb]
  have hS : (mem_init HEAP_SIZE base s).2.mem_free_zone = 0 ∨
      ((mem_init HEAP_SIZE base s).2.zones (mem_init HEAP_SIZE base s).2.mem_free_zone).next
        = (mem_init HEAP_SIZE base s).2.mem_free_zone := by
    right
    simp [mem_init, hb, write_next]
  obtain ⟨ps, s1, r1, r2, r3, r4⟩ :=
    alloc_run_single H fuel hf sizes (mem_init HEAP_SIZE base s).2 base hS (fun _ => h0)
  refine ⟨ps, s1, r1, r2, ?_, r4⟩
  by_cases hm : s1.mem_free_zone = 0
  · exact Or.inl hm
  · right
    rcases r3 with h | h
    · exact absurd h hm
    · exact ⟨s1.mem_free_zone, (s1.zones s1.mem_free_zone).size,
        ⟨⟨rfl, hm, rfl, h⟩, by simp⟩⟩

/-- Witness of `alloc_only_is_contiguous`: the sizes 100, 0, 8, 5000, 3980 with
`HEAP_SIZE = 4096`, `H = 16` and the arena at 4096. -/
theorem alloc_only_is_contiguous_witness :
    ∃ ps s1, alloc_run 16 1 (mem_init 4096 4096 blank).2 [100, 0, 8, 5000, 3980]
        = some (ps, s1) ∧
      ps.length = [100, 0, 8, 5000, 3980].length ∧
      (FreeListIs s1 [] ∨ ∃ a sz, FreeListIs s1 [(a, sz)]) ∧
      ∀ i, ps.getD i 0 ≠ 0 →
        ps.getD i 0 = 4096 + live_bytes 16 (([100, 0, 8, 5000, 3980].zip ps).take i) :=
  alloc_only_is_contiguous 16 4096 4096 1 blank [100, 0, 8, 5000, 3980] (by decide)
    (by decide)

/-! ## `mem_fusion` on any circular chain -/

theorem fusion_merge_fields (s : Heap) (c b nb : Nat) (csz bsz : Nat)
    (hc : s.zones c = ⟨csz, b⟩) (hb : s.zones b = ⟨bsz, nb⟩) :
    (fusion_merge s c).zones
        = write_next (write_size s.zones c ((csz + bsz) % ULONG_MOD)) c nb ∧
      (fusion_merge s c).mem_free_zone
        = (if b = s.mem_free_zone then c else s.mem_free_zone) ∧
      (fusion_merge s c).mem_heap = s.mem_heap ∧
      (fusion_merge s c).mem_size = s.mem_size := by
  unfold fusion_merge
  simp only [hc, hb]
  have e1 : (write_size s.zones c ((csz + bsz) % ULONG_MOD) c).next = b := by
    rw [write_size_next, hc]
  have e2 : (write_size s.zones c ((csz + bsz) % ULONG_MOD) b).next = nb := by
    rw [write_size_next, hb]
  simp only [e1, e2, and_self]

/-- The pass only removes blocks: the addresses left are a sublist of the
addresses of the chain. -/
theorem fuse_wrap_sublist (todo : List (Nat × Nat)) :
    ∀ (c : Nat × Nat),
      ((fuse_wrap c todo).map Prod.fst).Sublist ((c :: todo).map Prod.fst) := by
  induction todo with
  | nil => intro c; exact List.Sublist.refl _
  | cons b r ih =>
    intro c
    unfold fuse_wrap
    split
    · have h := ih (c.1, (c.2 + b.2) % ULONG_MOD)
      simp only [List.map_cons] at h ⊢
      exact h.trans ((List.sublist_cons_self _ _).cons₂ _)
    · have h := ih b
      simp only [List.map_cons] at h ⊢
      exact h.cons₂ _

/-- The loop of `mem_fusion` on a chain of distinct blocks, read from `h`: it
ends, on the last block of the fused chain, and rewrites `mem_free_zone` only
when it absorbs the block `mem_free_zone` points to. -/
theorem fusion_loop_chain (h : Nat) :
    ∀ (todo D : List (Nat × Nat)) (c : Nat × Nat) (s : Heap) (fuel : Nat),
      Seg s.zones h (D ++ c :: todo) h →
      (∀ d ∈ D, ∀ x ∈ c :: todo, d.1 ≠ x.1) → ((c :: todo).map Prod.fst).Nodup →
      h ∉ todo.map Prod.fst → todo.length < fuel →
      ∃ s1 pre e, fusion_loop h fuel s c.1 = some (s1, e.1) ∧
        fuse_wrap c todo = pre ++ [e] ∧
        Seg s1.zones h (D ++ fuse_wrap c todo) h ∧
        (s.mem_free_zone ∉ todo.map Prod.fst → s1.mem_free_zone = s.mem_free_zone) ∧
        s1.mem_heap = s.mem_heap ∧ s1.mem_size = s.mem_size := by
  intro todo
  induction todo with
  | nil =>
    intro D c s fuel hseg _ _ _ hf
    obtain ⟨m, h1, h2⟩ := (seg_append _ _ _ _ _).1 hseg
    obtain ⟨h2, h3, h4, h5⟩ := h2
    have h5 : (s.zones m).next = h := h5
    subst h2
    cases fuel with
    | zero => simp at hf
    | succ n =>
      refine ⟨s, [], c, ?_, rfl, hseg, fun _ => rfl, rfl, rfl⟩
      simp [fusion_loop, h3, h5]
  | cons b r ih =>
    intro D c s fuel hseg hD hnd hh hf
    obtain ⟨m, h1, h2⟩ := (seg_append _ _ _ _ _).1 hseg
    obtain ⟨h2, h3, h4, h5⟩ := h2
    subst h2
    obtain ⟨h6, h7, h8, h9⟩ := h5
    rw [h6] at h7 h8 h9
    simp only [List.map_cons, List.nodup_cons, List.mem_cons, not_or] at hnd hh
    obtain ⟨⟨n1, n2⟩, n3, n4⟩ := hnd
    have hbne : b.1 ≠ h := fun e => hh.1 e.symm
    cases fuel with
    | zero => simp at hf
    | succ n =>
      by_cases hadj : c.1 + c.2 = b.1
      · -- the current block absorbs its successor
        have hzc : s.zones c.1 = ⟨c.2, b.1⟩ := by
          rw [← h4, ← h6]
        have hzb : s.zones b.1 = ⟨b.2, (s.zones b.1).next⟩ := by
          rw [← h8]
        obtain ⟨m1, m2, m3, m4⟩ :=
          fusion_merge_fields s c.1 b.1 (s.zones b.1).next c.2 b.2 hzc hzb
        have hfr : ∀ a, a ≠ c.1 →
            write_next (write_size s.zones c.1 ((c.2 + b.2) % ULONG_MOD)) c.1
              (s.zones b.1).next a = s.zones a := by
          intro a ha
          simp [write_next, write_size, ha]
        have hseg2 : Seg (fusion_merge s c.1).zones h
            (D ++ (c.1, (c.2 + b.2) % ULONG_MOD) :: r) h := by
          rw [m1, seg_append]
          refine ⟨c.1, ?_, ?_⟩
          · exact seg_frame _ _ D h c.1
              (fun x hx => hfr x.1 (hD x hx c (List.mem_cons_self _ _))) h1
          · rw [seg_cons]
            refine ⟨rfl, h3, by simp [write_next, write_size], ?_⟩
            have e : (write_next (write_size s.zones c.1 ((c.2 + b.2) % ULONG_MOD)) c.1
                (s.zones b.1).next c.1).next = (s.zones b.1).next := by
              simp [write_next, write_size]
            simp only [e]
            refine seg_frame _ _ r _ h (fun x hx => ?_) h9
            apply hfr
            intro e2
            exact n2 (List.mem_map.2 ⟨x, hx, e2⟩)
        obtain ⟨s1, pre, e, r1, r2, r3, r4, r5, r6⟩ :=
          ih D (c.1, (c.2 + b.2) % ULONG_MOD) (fusion_merge s c.1) n hseg2
            (by
              intro d hd x hx
              rcases List.mem_cons.1 hx with e | hx
              · rw [e]; exact hD d hd c (List.mem_cons_self _ _)
              · exact hD d hd x (List.mem_cons_of_mem _ (List.mem_cons_of_mem _ hx)))
            (by
              simp only [List.map_cons, List.nodup_cons]
              exact ⟨n2, n4⟩)
            hh.2 (by simp at hf; omega)
        refine ⟨s1, pre, e, ?_, ?_, ?_, ?_, ?_, ?_⟩
        · simp only [fusion_loop, if_neg h3, h4, h6, hbne, ne_eq, not_false_eq_true, if_true,
            if_pos hadj]
          exact r1
        · simp only [fuse_wrap, if_pos hadj]
          exact r2
        · simp only [fuse_wrap, if_pos hadj]
          exact r3
        · intro hm
          simp only [List.map_cons, List.mem_cons, not_or] at hm
          rw [r4 (by rw [m2, if_neg (fun e => hm.1 e.symm)]; exact hm.2), m2,
            if_neg (fun e => hm.1 e.symm)]
        · rw [r5, m3]
        · rw [r6, m4]
      · -- the walk moves to the successor
        have hseg2 : Seg s.zones h ((D ++ [c]) ++ b :: r) h := by
          rw [List.append_assoc]
          exact hseg
        obtain ⟨s1, pre, e, r1, r2, r3, r4, r5, r6⟩ :=
          ih (D ++ [c]) b s n hseg2
            (by
              intro d hd x hx
              rcases List.mem_append.1 hd with hd | hd
              · exact hD d hd x (List.mem_cons_of_mem _ hx)
              · simp only [List.mem_singleton] at hd
                rw [hd]
                intro e2
                rcases List.mem_cons.1 hx with e3 | hx
                · rw [e3] at e2; exact n1 e2
                · exact n2 (List.mem_map.2 ⟨x, hx, e2.symm⟩))
            (by
              simp only [List.map_cons, List.nodup_cons]
              exact ⟨n3, n4⟩)
            hh.2 (by simp at hf; omega)
        refine ⟨s1, c :: pre, e, ?_, ?_, ?_, ?_, r5, r6⟩
        · simp only [fusion_loop, if_neg h3, h4, h6, hbne, ne_eq, not_false_eq_true, if_true,
            if_neg hadj]
          exact r1
        · simp only [fuse_wrap, if_neg hadj, r2, List.cons_append]
        · simp only [fuse_wrap, if_neg hadj]
          rw [List.append_assoc] at r3
          exact r3
        · intro hm
          simp only [List.map_cons, List.mem_cons, not_or] at hm
          exact r4 hm.2

theorem freeListIs_chain (s : Heap) (l : List (Nat × Nat)) (hne : l ≠ [])
    (h : FreeListIs s l) :
    Seg s.zones s.mem_free_zone l s.mem_free_zone ∧ (l.map Prod.fst).Nodup := by
  cases l with
  | nil => exact absurd rfl hne
  | cons x r => exact h

theorem fusion_merge_mfz (s : Heap) (c : Nat) :
    (fusion_merge s c).mem_free_zone
      = if (s.zones c).next = s.mem_free_zone then c else s.mem_free_zone := by
  simp only [fusion_merge, write_size_next]

/-- C17: on a circular free list that is address-sorted from `mem_free_zone`,
`mem_fusion(mem_free_zone)` returns 0 and leaves `mem_free_zone` as it was.  When
moreover the blocks are disjoint, of positive size, and end below `2 ^ 64`, the
loop ends with `mem_free_zone` untouched and the final test
`senti + senti->size == senti->next` is false: the last block does not end at
the head, so the final head rewrite is not reached. -/
theorem mem_fusion_keeps_mem_free_zone (fuel : Nat) (s : Heap) (l : List (Nat × Nat))
    (hlist : FreeListIs s l) (hne : l ≠ [])
    (hsorted : l.Pairwise (fun x y => x.1 < y.1)) (hfuel : l.length ≤ fuel) :
    (∃ s1, mem_fusion fuel s s.mem_free_zone = some (0, s1) ∧
      s1.mem_free_zone = s.mem_free_zone) ∧
    ((∀ x ∈ l, 0 < x.2 ∧ x.1 + x.2 < ULONG_MOD) →
      l.Pairwise (fun x y => x.1 + x.2 ≤ y.1) →
      ∃ s0 e, fusion_loop s.mem_free_zone fuel s s.mem_free_zone = some (s0, e) ∧
        s0.mem_free_zone = s.mem_free_zone ∧
        e + (s0.zones e).size ≠ (s0.zones e).next) := by
  obtain ⟨hseg, hnd⟩ := freeListIs_chain s l hne hlist
  cases l with
  | nil => exact absurd rfl hne
  | cons c todo =>
    have hc := (seg_head _ _ _ _ _ hseg).1
    have hf : todo.length < fuel := by simp at hfuel; omega
    have hh : s.mem_free_zone ∉ todo.map Prod.fst := by
      rw [List.map_cons, List.nodup_cons] at hnd
      rw [hc]
      exact hnd.1
    constructor
    · obtain ⟨s1, pre, e, r1, r2, r3, r4, _, _⟩ :=
        fusion_loop_chain s.mem_free_zone todo [] c s fuel hseg (by simp) hnd hh hf
      rw [← hc] at r1
      rw [List.nil_append, r2] at r3
      obtain ⟨m, g1, g2⟩ := (seg_append _ _ _ _ _).1 r3
      obtain ⟨g2, _, _, g5⟩ := g2
      have g5 : (s1.zones m).next = s.mem_free_zone := g5
      subst g2
      have hle : s.mem_free_zone ≤ e.1 := by
        have h1 : e.1 ∈ (fuse_wrap c todo).map Prod.fst := by
          rw [r2]
          exact List.mem_map.2 ⟨e, by simp, rfl⟩
        have h2 := (fuse_wrap_sublist todo c).subset h1
        rw [List.map_cons, List.mem_cons] at h2
        rcases h2 with h2 | h2
        · omega
        · obtain ⟨x, hx, hx2⟩ := List.mem_map.1 h2
          rw [List.pairwise_cons] at hsorted
          have := hsorted.1 x hx
          omega
      simp only [mem_fusion, r1]
      by_cases ht : e.1 + (s1.zones e.1).size = (s1.zones e.1).next
      · rw [if_pos ht]
        refine ⟨_, rfl, ?_⟩
        rw [fusion_merge_mfz, g5, r4 hh, if_pos rfl]
        rw [g5] at ht
        omega
      · rw [if_neg ht]
        exact ⟨s1, rfl, r4 hh⟩
    · intro hpos hdisj
      have hbl : Blocks 0 (ULONG_MOD - 1) (c :: todo) :=
        blocks_of_pairwise _ _ 0 (Nat.zero_le _) (hsorted.and hdisj)
          (fun x hx => by
            have := hpos x hx
            omega)
      obtain ⟨s0, e, r1, r2, _, r4, _, _⟩ :=
        fusion_loop_spec s.mem_free_zone (ULONG_MOD - 1) (by simp [ULONG_MOD]) todo [] c s
          fuel hseg ⟨le_refl _, hbl.2⟩ (by simp) rfl (by omega) hf
      rw [← hc] at r1
      exact ⟨s0, e, r1, r4, r2⟩

/-- Witness of `mem_fusion_keeps_mem_free_zone`: the free list of `three_blocks`. -/
theorem mem_fusion_keeps_mem_free_zone_witness :
    (∃ s1, mem_fusion 3 three_blocks three_blocks.mem_free_zone = some (0, s1) ∧
      s1.mem_free_zone = three_blocks.mem_free_zone) ∧
    ((∀ x ∈ [(4096, 16), (4196, 32), (4296, 64)], 0 < x.2 ∧ x.1 + x.2 < ULONG_MOD) →
      [(4096, 16), (4196, 32), (4296, 64)].Pairwise (fun x y => x.1 + x.2 ≤ y.1) →
      ∃ s0 e, fusion_loop three_blocks.mem_free_zone 3 three_blocks
          three_blocks.mem_free_zone = some (s0, e) ∧
        s0.mem_free_zone = three_blocks.mem_free_zone ∧
        e + (s0.zones e).size ≠ (s0.zones e).next) :=
  mem_fusion_keeps_mem_free_zone 3 three_blocks [(4096, 16), (4196, 32), (4296, 64)]
    (by simp [FreeListIs, Seg, three_blocks]) (by simp) (by simp) (by simp)

end MemAlloc
